import Mathlib

/-!
# Contrast stretch over MPI, and the merge sort exercise

A shallow embedding of `project02-release/cs-mpi/main.cpp` and of
`L4-MergeSortNearestNeighbor/mergesort-todo/mergesort.cpp`.

Memory is modelled by total functions: an image `uchar**` is a function from
a row index to a row, a row `uchar*` is a function from a byte index to a
byte.  A matched `MPI_Send`/`MPI_Recv` pair copies `cols*3` bytes from the
sender's row into the receiver's row (namespace `CsMpi`); that the sends and
receives of a run do match, in every order in which they can happen, is the
subject of namespace `Schedule`, a step relation over the blocking calls.
Namespace `MergeSort` holds the merge sort exercise.
-/

namespace CsMpi

/-- One byte, `unsigned char`. -/
abbrev uchar := Fin 256

/-- A row of bytes, `uchar*`: byte index to byte. -/
abbrev Row := Nat → uchar

/-- An image or local buffer, `uchar**` (`Img` in main.cpp): row index to row. -/
abbrev Img := Nat → Row

/-- The library call `memcpy(dst, src, n)` on two rows: the first `n` bytes of
`dst` become those of `src`. -/
def memcpy (dst src : Row) (n : Nat) : Row :=
  fun j => if j < n then src j else dst j

/-- Replace row `r` of `m`, the effect of a write through the row pointer
`m[r]`. -/
def setRow (m : Img) (r : Nat) (row : Row) : Img :=
  fun i => if i = r then row else m i

/-- The assignment `m[r][j] = v`. -/
def setByte (m : Img) (r j : Nat) (v : uchar) : Img :=
  fun i => if i = r then (fun k => if k = j then v else m i k) else m i

/-- The statement `memcpy(m[r], src, n)`. -/
def copyRow (m : Img) (r : Nat) (src : Row) (n : Nat) : Img :=
  setRow m r (memcpy (m r) src n)

/-- The loop `for (int i = lo; i < hi; ++i) body(i)` over a state. -/
def forLoop {σ : Type} (lo hi : Nat) (body : Nat → σ → σ) (init : σ) : σ :=
  (List.range' lo (hi - lo)).foldl (fun s i => body i s) init

/-- The decomposition of main.cpp lines 146-148 (and 160, 217 for the other
ranks): `base + (rank < rem ? 1 : 0)` with `base = rows / size` and
`rem = rows % size`. -/
def local_rows (rows size rank : Nat) : Nat :=
  rows / size + (if rank < rows % size then 1 else 0)

/-- The running `pos` of the scatter loop (lines 158-164) and of the gather
loop (lines 215-221), read when the loop over `p` reaches rank `p >= 1`:
`pos` starts as rank 0's `local_rows` and the body for each rank `q` ends with
`pos += pr`.  Rank 0's own rows are copied from row `0` on (lines 156-157,
213-214), so its offset is `0`. -/
def start_row (rows size p : Nat) : Nat :=
  if p = 0 then 0
  else forLoop 1 p (fun q pos => pos + local_rows rows size q) (local_rows rows size 0)

/-- The kernel of `stretch_one_pixel`, whose body is in cs.cpp and not in this
repository's files: a function from the 3x3 pixel neighbourhood (3 rows of 9
bytes) to the three bytes of the new pixel. -/
abbrev Kernel := (Fin 3 → Fin 9 → uchar) → Fin 3 → uchar

/-- The 3x3 pixel neighbourhood of the pixel at row `baserow`, byte `basecol`:
rows `baserow-1 .. baserow+1`, bytes `basecol-3 .. basecol+5`. -/
def nbhd (src : Img) (baserow basecol : Nat) : Fin 3 → Fin 9 → uchar :=
  fun dr dc => src (baserow + dr.val - 1) (basecol + dc.val - 3)

/-- Modelled from the spec: the body of `stretch_one_pixel` (declared at
main.cpp line 34, defined in cs.cpp) is missing.  The pixel at row `baserow`,
bytes `basecol .. basecol+2` of `dest` becomes the kernel's value on the
neighbourhood rows `baserow-1 .. baserow+1`, bytes `basecol-3 .. basecol+5` of
`src`; nothing else is written. -/
def stretch_one_pixel (K : Kernel) (dest src : Img) (baserow basecol : Nat) : Img :=
  let nb := nbhd src baserow basecol
  setByte (setByte (setByte dest baserow basecol (K nb 0))
    baserow (basecol + 1) (K nb 1)) baserow (basecol + 2) (K nb 2)

/-- The value the stretch gives byte `j` of row `r`: the kernel on the
neighbourhood of the pixel that byte belongs to, at channel `j % 3`. -/
def stretched (K : Kernel) (src : Img) (r j : Nat) : uchar :=
  K (nbhd src r (3 * (j / 3))) ⟨j % 3, Nat.mod_lt j (by decide)⟩

/-- The six assignments of lines 188-194 for one row `r`: the three bytes of
the first pixel and, with `off = (cols-1)*3`, the three bytes of the last
pixel are copied from `src` to `dest`.  (For `cols = 0` the C offset is
negative and the write falls outside the row; a grid without columns has no
byte to state anything about.) -/
def copyEdgePixels (dest src : Img) (r cols : Nat) : Img :=
  let off := (cols - 1) * 3
  setByte (setByte (setByte (setByte (setByte (setByte dest
    r 0 (src r 0)) r 1 (src r 1)) r 2 (src r 2))
    r off (src r off)) r (off + 1) (src r (off + 1))) r (off + 2) (src r (off + 2))

/-- Modelled from the spec: the body of `copy_boundary` (declared at main.cpp
line 31, defined in cs.cpp) is missing.  Row `0`, row `rows-1`, and in every
row the first and the last pixel are copied from `src` to `dest`. -/
def copy_boundary (dest src : Img) (rows cols : Nat) : Img :=
  let a := copyRow dest 0 (src 0) (cols * 3)
  let b := copyRow a (rows - 1) (src (rows - 1)) (cols * 3)
  forLoop 0 rows (fun r d => copyEdgePixels d src r cols) b

/-- The inner loop of lines 123-127 and 201-204:
`int bc = 3; for (int c = 1; c < cols-1; ++c, bc += 3) stretch_one_pixel(dest, src, r, bc);`
The state is the destination and `bc`. -/
def stretchRow (K : Kernel) (dest src : Img) (r cols : Nat) : Img :=
  (forLoop 1 (cols - 1)
    (fun _ (st : Img × Nat) => (stretch_one_pixel K st.1 src r st.2, st.2 + 3)) (dest, 3)).1

/-- The row loop around `stretchRow`: `for (int r = lo; r < hi; ++r)`. -/
def stretchRows (K : Kernel) (dest src : Img) (lo hi cols : Nat) : Img :=
  forLoop lo hi (fun r d => stretchRow K d src r cols) dest

/-- `ContrastStretchSerial`, lines 113-135.  `tmp0` is the content of the
freshly allocated `tmp`.  The loop state is the pair `(img, tmp)`; each step
stretches rows `1 .. rows-2` from `img` into `tmp` and swaps the pointers. -/
def ContrastStretchSerial (K : Kernel) (tmp0 img : Img) (rows cols steps : Nat) : Img :=
  let tmp := copy_boundary tmp0 img rows cols
  (forLoop 1 (steps + 1)
    (fun _ (st : Img × Img) => (stretchRows K st.2 st.1 1 (rows - 1) cols, st.1))
    (img, tmp)).1

/-- Scatter, lines 154-168, as seen by `rank`: its local row `r+1` receives
`cols*3` bytes of global row `pos + r`.  Rank 0 copies with `memcpy` from row
`r`; rank `p >= 1` receives in its `r`-th `MPI_Recv` what rank 0 sends in the
`r`-th `MPI_Send` to `p`, the row `img[pos + r]` with `pos` the running
position `start_row`. -/
def scatter (img : Img) (rows cols size : Nat) (loc : Img) (rank : Nat) : Img :=
  forLoop 0 (local_rows rows size rank)
    (fun r l => copyRow l (r + 1) (img (start_row rows size rank + r)) (cols * 3)) loc

/-- The first `MPI_Sendrecv` of an iteration, lines 171-174, done by every
rank above 0: it receives into `loc[0]` the row that rank-1 sends with tag 2
in its second `MPI_Sendrecv`, which is row `local_rows` of rank-1's buffer as
it stands after rank-1's own first exchange. -/
def haloUp (rows cols size : Nat) (locs : Nat → Img) : Nat → Img
  | 0 => locs 0
  | p + 1 =>
    copyRow (locs (p + 1)) 0 (haloUp rows cols size locs p (local_rows rows size p)) (cols * 3)

/-- Both exchanges of an iteration, lines 171-178: after the first, every rank
below `size-1` receives into `loc[local_rows+1]` the row that rank+1 sends
with tag 1 in its first `MPI_Sendrecv`, row 1 of rank+1's buffer as the
iteration found it. -/
def haloExchange (rows cols size : Nat) (locs : Nat → Img) (rank : Nat) : Img :=
  let a := haloUp rows cols size locs rank
  if rank < size - 1 then
    copyRow a (local_rows rows size rank + 1) (locs (rank + 1) 1) (cols * 3)
  else a

/-- The local part of an iteration, lines 179-208: the two `memcpy` pairs, the
loop over the first and last pixel of the rows `1 .. local_rows`, the stretch
of rows `rs .. re`, and the swap.  Returns the new `(loc, loc2)`.  When
`local_rows = 0` on the last rank the C bound `re` is `-1`; here it is `0`,
and the loop from `rs >= 1` is empty either way. -/
def computeStep (K : Kernel) (rows cols size rank : Nat) (loc loc2 : Img) : Img × Img :=
  let lr := local_rows rows size rank
  let a := if rank = 0 then copyRow loc2 1 (loc 1) (cols * 3)
           else copyRow loc2 1 (loc 0) (cols * 3)
  let b := if rank = size - 1 then copyRow a lr (loc lr) (cols * 3)
           else copyRow a lr (loc (lr + 1)) (cols * 3)
  let c := forLoop 1 (lr + 1) (fun r d => copyEdgePixels d loc r cols) b
  let rs := if rank = 0 then 2 else 1
  let re := if rank = size - 1 then lr - 1 else lr
  (stretchRows K c loc rs (re + 1) cols, loc)

/-- One iteration of the loop of lines 169-209 on all ranks: the halo exchange
on the current buffers, then the local step of each rank. -/
def mpiStep (K : Kernel) (rows cols size : Nat) (w : Nat → Img × Img) : Nat → Img × Img :=
  fun rank =>
    computeStep K rows cols size rank
      (haloExchange rows cols size (fun p => (w p).1) rank) (w rank).2

/-- The buffers `(loc, loc2)` of every rank after the scatter and `steps`
iterations.  `alloc rank` is the content of the two freshly allocated
buffers of `rank`. -/
def mpiWorld (K : Kernel) (alloc : Nat → Img × Img) (img : Img)
    (rows cols steps size : Nat) : Nat → Img × Img :=
  forLoop 1 (steps + 1) (fun _ w => mpiStep K rows cols size w)
    (fun rank => (scatter img rows cols size (alloc rank).1 rank, (alloc rank).2))

/-- Gather on rank 0, lines 212-221: its own rows are copied back with
`memcpy`, then for `p = 1 .. size-1` the `r`-th `MPI_Recv` from `p` stores into
`img[pos + r]` what `p` sends in its `r`-th `MPI_Send` of lines 224-225, its
row `loc[r+1]`.  The state of the outer loop is the image and `pos`. -/
def gather (img : Img) (rows cols size : Nat) (locs : Nat → Img) : Img :=
  let own := forLoop 0 (local_rows rows size 0)
    (fun r g => copyRow g r (locs 0 (r + 1)) (cols * 3)) img
  (forLoop 1 size (fun p (st : Img × Nat) =>
    let pr := local_rows rows size p
    (forLoop 0 pr (fun r g => copyRow g (st.2 + r) (locs p (r + 1)) (cols * 3)) st.1,
      st.2 + pr)) (own, local_rows rows size 0)).1

/-- `ContrastStretchMPI`, lines 139-232, as returned on `rank`:
`rank == 0 ? img : nullptr`. -/
def ContrastStretchMPI (K : Kernel) (alloc : Nat → Img × Img) (img : Img)
    (rows cols steps size rank : Nat) : Option Img :=
  if rank = 0 then
    some (gather img rows cols size (fun p => (mpiWorld K alloc img rows cols steps size p).1))
  else none

/-- The grid after `s` stencil iterations as the spec describes it (sections
4.2 and 4.3): the boundary rows and columns are those of the input, every
interior byte is the kernel's value on the previous grid.  The reference that
both drivers are compared with. -/
def serialRef (K : Kernel) (img : Img) (rows cols : Nat) : Nat → Img
  | 0 => img
  | s + 1 => fun r j =>
    if 1 ≤ r ∧ r < rows - 1 ∧ (3 ≤ j ∧ j < 3 * (cols - 1))
    then stretched K (serialRef K img rows cols s) r j else img r j

/-- `main`, lines 41-109: the exit code, and on rank 0 the image handed to
`WriteBitmapFile`.  `file` is what `ReadBitmapFile` returns (no image, or the
image with `rows` and `cols`), `steps` is `atoi(argv[3])`; a negative `steps`
runs no iteration of either loop. -/
def main (K : Kernel) (tmp0 : Img) (alloc : Nat → Img × Img) (argc : Int) (steps : Int)
    (file : Option (Img × Nat × Nat)) (size rank : Nat) : Int × Option Img :=
  if argc ≠ 4 then (0, none)
  else
    match file with
    | none => (1, none)
    | some (image, rows, cols) =>
      let image2 :=
        if size > 1 then ContrastStretchMPI K alloc image rows cols steps.toNat size rank
        else some (ContrastStretchSerial K tmp0 image rows cols steps.toNat)
      (0, if rank = 0 then image2 else none)

end CsMpi

namespace MergeSort

end MergeSort

namespace Schedule

open CsMpi (forLoop local_rows)

/-- A blocking MPI call of `ContrastStretchMPI` by what it still waits for:
`snd` is the destination and tag of a send not yet matched, `rcv` the source
and tag of a receive not yet matched.  A call returns when both are `none`. -/
structure Call where
  snd : Option (Nat × Nat)
  rcv : Option (Nat × Nat)

/-- The call `MPI_Send(.., dest, tag, MPI_COMM_WORLD)`, read as a blocking
send without buffering: it returns only once the matching receive has taken
the message.  This is the reading under which a send waits longest. -/
def MPI_Send (dest tag : Nat) : Call := ⟨some (dest, tag), none⟩

/-- The call `MPI_Recv(.., source, tag, MPI_COMM_WORLD, ..)`. -/
def MPI_Recv (source tag : Nat) : Call := ⟨none, some (source, tag)⟩

/-- The call `MPI_Sendrecv(.., dest, sendtag, .., source, recvtag, ..)`: a send
and a receive that proceed independently; the call returns when both are
done. -/
def MPI_Sendrecv (dest sendtag source recvtag : Nat) : Call :=
  ⟨some (dest, sendtag), some (source, recvtag)⟩

/-- The calls of the scatter, lines 155-168, in program order: on rank 0 the
sends of the loops over `p` and `r`, on any other rank its `local_rows`
receives. -/
def scatterCalls (rows size rank : Nat) : List Call :=
  if rank = 0 then
    forLoop 1 size
      (fun p calls => calls ++ List.replicate (local_rows rows size p) (MPI_Send p 0)) []
  else List.replicate (local_rows rows size rank) (MPI_Recv 0 0)

/-- The calls of one iteration, lines 171-178. -/
def iterCalls (size rank : Nat) : List Call :=
  (if rank > 0 then [MPI_Sendrecv (rank - 1) 1 (rank - 1) 2] else []) ++
  (if rank < size - 1 then [MPI_Sendrecv (rank + 1) 2 (rank + 1) 1] else [])

/-- The calls of the gather, lines 212-226: on rank 0 the receives of the
loops over `p` and `r`, on any other rank its `local_rows` sends. -/
def gatherCalls (rows size rank : Nat) : List Call :=
  if rank = 0 then
    forLoop 1 size
      (fun p calls => calls ++ List.replicate (local_rows rows size p) (MPI_Recv p 3)) []
  else List.replicate (local_rows rows size rank) (MPI_Send 0 3)

/-- All calls of `ContrastStretchMPI` on `rank`, in program order: the
scatter, `steps` iterations, the gather. -/
def program (rows size steps rank : Nat) : List Call :=
  scatterCalls rows size rank ++
    forLoop 1 (steps + 1) (fun _ calls => calls ++ iterCalls size rank) [] ++
    gatherCalls rows size rank

/-- The state of a run: for each rank the calls it has not returned from yet;
the rank is blocked in the first of them. -/
abbrev State := Nat → List Call

/-- The ranks `0 .. size-1` at the entry of `ContrastStretchMPI`. -/
def initial (rows size steps : Nat) : State :=
  fun rank => if rank < size then program rows size steps rank else []

/-- A message transfer: sender, receiver, tag. -/
structure Msg where
  src : Nat
  dst : Nat
  tag : Nat

/-- The send still open in the call a rank is blocked in, if any. -/
def openSend : List Call → Option (Nat × Nat)
  | [] => none
  | c :: _ => c.snd

/-- The receive still open in the call a rank is blocked in, if any. -/
def openRecv : List Call → Option (Nat × Nat)
  | [] => none
  | c :: _ => c.rcv

/-- The transfer `m` can happen: the sender is blocked in a send to `m.dst`
with tag `m.tag` and the receiver is blocked in a receive from `m.src` with
the same tag. -/
def enabled (s : State) (m : Msg) : Prop :=
  m.src ≠ m.dst ∧ openSend (s m.src) = some (m.dst, m.tag) ∧
    openRecv (s m.dst) = some (m.src, m.tag)

instance (s : State) (m : Msg) : Decidable (enabled s m) := by
  unfold enabled
  infer_instance

/-- The sender's calls after its send is matched: the call returns unless its
receive is still open. -/
def doneSend : List Call → List Call
  | [] => []
  | c :: rest =>
    match c.rcv with
    | none => rest
    | some r => ⟨none, some r⟩ :: rest

/-- The receiver's calls after its receive is matched. -/
def doneRecv : List Call → List Call
  | [] => []
  | c :: rest =>
    match c.snd with
    | none => rest
    | some d => ⟨some d, none⟩ :: rest

/-- The state after the transfer `m`. -/
def fire (s : State) (m : Msg) : State :=
  fun rank =>
    if rank = m.src then doneSend (s rank)
    else if rank = m.dst then doneRecv (s rank)
    else s rank

/-- Run the transfers `ms` in order; `none` when one of them cannot happen. -/
def exec : State → List Msg → Option State
  | s, [] => some s
  | s, m :: ms => if enabled s m then exec (fire s m) ms else none

/-- One order in which the transfers of a run can happen: the scatter rows
rank by rank, in each iteration the two transfers between ranks `p` and `p+1`
for `p = 0, 1, ..`, then the gather rows rank by rank. -/
def schedule (rows size steps : Nat) : List Msg :=
  forLoop 1 size
      (fun p ms => ms ++ List.replicate (local_rows rows size p) ⟨0, p, 0⟩) [] ++
    forLoop 1 (steps + 1) (fun _ ms => ms ++
      forLoop 0 (size - 1) (fun p ms => ms ++ [⟨p + 1, p, 1⟩, ⟨p, p + 1, 2⟩]) []) [] ++
    forLoop 1 size
      (fun p ms => ms ++ List.replicate (local_rows rows size p) ⟨p, 0, 3⟩) []

end Schedule

namespace CsMpi

/-! ## Loops -/

theorem forLoop_empty {σ : Type} (lo hi : Nat) (body : Nat → σ → σ) (init : σ)
    (h : hi ≤ lo) : forLoop lo hi body init = init := by
  unfold forLoop
  rw [Nat.sub_eq_zero_of_le h]
  rfl

theorem forLoop_succ {σ : Type} (lo hi : Nat) (body : Nat → σ → σ) (init : σ)
    (h : lo ≤ hi) : forLoop lo (hi + 1) body init = body hi (forLoop lo hi body init) := by
  unfold forLoop
  have e : hi + 1 - lo = (hi - lo) + 1 := by omega
  rw [e, List.range'_concat, List.foldl_append]
  simp only [List.foldl_cons, List.foldl_nil, Nat.one_mul]
  congr 1
  omega

/-- Loop invariant rule: what holds at entry and is kept by every pass of the
body holds at exit. -/
theorem forLoop_inv {σ : Type} (P : Nat → σ → Prop) (lo hi : Nat) (body : Nat → σ → σ)
    (init : σ) (hle : lo ≤ hi) (h0 : P lo init)
    (hstep : ∀ i s, lo ≤ i → i < hi → P i s → P (i + 1) (body i s)) :
    P hi (forLoop lo hi body init) := by
  induction hi with
  | zero =>
    have : lo = 0 := by omega
    subst this
    rw [forLoop_empty _ _ _ _ (le_refl _)]
    exact h0
  | succ n ih =>
    rcases Nat.eq_or_lt_of_le hle with h | h
    · subst h
      rw [forLoop_empty _ _ _ _ (le_refl _)]
      exact h0
    · have hn : lo ≤ n := by omega
      rw [forLoop_succ _ _ _ _ hn]
      exact hstep n _ hn (by omega) (ih hn (fun i s h1 h2 hp => hstep i s h1 (by omega) hp))

/-! ## Decomposition -/

theorem start_row_zero (rows size : Nat) : start_row rows size 0 = 0 := by
  simp [start_row]

theorem start_row_succ (rows size p : Nat) :
    start_row rows size (p + 1) = start_row rows size p + local_rows rows size p := by
  unfold start_row
  rcases Nat.eq_zero_or_pos p with h | h
  · subst h
    simp [forLoop_empty]
  · rw [if_neg (by omega), if_neg (by omega), forLoop_succ _ _ _ _ (by omega)]

theorem start_row_eq_sum (rows size p : Nat) :
    start_row rows size p = ∑ q in Finset.range p, local_rows rows size q := by
  induction p with
  | zero => simp [start_row_zero]
  | succ n ih => rw [start_row_succ, Finset.sum_range_succ, ih]

theorem start_row_closed (rows size p : Nat) :
    start_row rows size p = p * (rows / size) + min p (rows % size) := by
  induction p with
  | zero => simp [start_row_zero]
  | succ n ih =>
    rw [start_row_succ, ih, local_rows, Nat.succ_mul]
    split_ifs with h
    · rw [Nat.min_def, Nat.min_def]
      split_ifs <;> omega
    · rw [Nat.min_def, Nat.min_def]
      split_ifs <;> omega

theorem start_row_size (rows size : Nat) (h : 1 ≤ size) : start_row rows size size = rows := by
  rw [start_row_closed]
  have h1 : rows % size < size := Nat.mod_lt _ (by omega)
  rw [Nat.min_eq_right (le_of_lt h1)]
  exact Nat.div_add_mod rows size

theorem start_row_mono (rows size : Nat) {p q : Nat} (h : p ≤ q) :
    start_row rows size p ≤ start_row rows size q := by
  induction q with
  | zero =>
    have : p = 0 := by omega
    subst this
    exact le_refl _
  | succ n ih =>
    rcases Nat.eq_or_lt_of_le h with h | h
    · subst h
      exact le_refl _
    · have := ih (by omega)
      rw [start_row_succ]
      omega

theorem owner_exists (rows size : Nat) (n r : Nat) (h : r < start_row rows size n) :
    ∃ p, p < n ∧ start_row rows size p ≤ r ∧
      r < start_row rows size p + local_rows rows size p := by
  induction n with
  | zero => simp [start_row_zero] at h
  | succ n ih =>
    by_cases h1 : r < start_row rows size n
    · obtain ⟨p, hp, h2, h3⟩ := ih h1
      exact ⟨p, by omega, h2, h3⟩
    · rw [start_row_succ] at h
      exact ⟨n, by omega, by omega, h⟩

theorem owner_unique (rows size : Nat) (r p q : Nat)
    (hp1 : start_row rows size p ≤ r) (hp2 : r < start_row rows size p + local_rows rows size p)
    (hq1 : start_row rows size q ≤ r) (hq2 : r < start_row rows size q + local_rows rows size q) :
    p = q := by
  rcases Nat.lt_trichotomy p q with h | h | h
  · have := start_row_mono rows size (show p + 1 ≤ q by omega)
    rw [start_row_succ] at this
    omega
  · exact h
  · have := start_row_mono rows size (show q + 1 ≤ p by omega)
    rw [start_row_succ] at this
    omega

/-- C3: for `worker_count >= 1` and every `rows` (so for all
`rows >= worker_count >= 1`) the running position `pos` of the scatter and
gather loops is the sum of the earlier ranks' `local_rows`, the row ranges
`[start_row p, start_row p + local_rows p)` of the ranks below `worker_count`
lie in `[0, rows)` and cover each of its rows exactly once, and two ranks'
`local_rows` differ by at most 1. -/
theorem decomposition_coverage (rows size : Nat) (h1 : 1 ≤ size) :
    (∀ p, start_row rows size p = ∑ q in Finset.range p, local_rows rows size q) ∧
    (∀ p, p < size → start_row rows size p + local_rows rows size p ≤ rows) ∧
    (∀ r, r < rows → ∃! p, p < size ∧ start_row rows size p ≤ r ∧
      r < start_row rows size p + local_rows rows size p) ∧
    (∀ p q, p < size → q < size →
      local_rows rows size p ≤ local_rows rows size q + 1 ∧
      local_rows rows size p - local_rows rows size q ≤ 1) := by
  refine ⟨start_row_eq_sum rows size, ?_, ?_, ?_⟩
  · intro p hp
    have := start_row_mono rows size (show p + 1 ≤ size by omega)
    rw [start_row_succ, start_row_size rows size h1] at this
    exact this
  · intro r hr
    rw [← start_row_size rows size h1] at hr
    obtain ⟨p, hp, h3, h4⟩ := owner_exists rows size size r hr
    refine ⟨p, ⟨hp, h3, h4⟩, ?_⟩
    rintro q ⟨_, h5, h6⟩
    exact owner_unique rows size r q p h5 h6 h3 h4
  · intro p q _ _
    unfold local_rows
    split_ifs <;> omega

/-- C3 at 10 rows on 4 workers. -/
theorem decomposition_coverage_witness :
    1 ≤ 4 ∧
    ((∀ p, start_row 10 4 p = ∑ q in Finset.range p, local_rows 10 4 q) ∧
    (∀ p, p < 4 → start_row 10 4 p + local_rows 10 4 p ≤ 10) ∧
    (∀ r, r < 10 → ∃! p, p < 4 ∧ start_row 10 4 p ≤ r ∧
      r < start_row 10 4 p + local_rows 10 4 p) ∧
    (∀ p q, p < 4 → q < 4 →
      local_rows 10 4 p ≤ local_rows 10 4 q + 1 ∧
      local_rows 10 4 p - local_rows 10 4 q ≤ 1)) :=
  ⟨by decide, decomposition_coverage 10 4 (by decide)⟩

end CsMpi

namespace CsMpi

/-! ## Writes, pointwise -/

theorem copyRow_apply (m : Img) (r : Nat) (src : Row) (n i j : Nat) :
    copyRow m r src n i j = if i = r ∧ j < n then src j else m i j := by
  unfold copyRow setRow memcpy
  by_cases h1 : i = r
  · subst h1
    by_cases h2 : j < n <;> simp [h2]
  · simp [h1]

theorem setByte_apply (m : Img) (r j : Nat) (v : uchar) (i k : Nat) :
    setByte m r j v i k = if i = r ∧ k = j then v else m i k := by
  unfold setByte
  by_cases h1 : i = r
  · by_cases h2 : k = j <;> simp [h1, h2]
  · simp [h1]

/-! ## Scatter and gather -/

theorem scatter_apply (img : Img) (rows cols size : Nat) (loc : Img) (rank i j : Nat) :
    scatter img rows cols size loc rank i j =
      if 1 ≤ i ∧ i ≤ local_rows rows size rank ∧ j < cols * 3
      then img (start_row rows size rank + (i - 1)) j else loc i j := by
  unfold scatter
  refine forLoop_inv
    (fun n (l : Img) => ∀ i j, l i j =
      if 1 ≤ i ∧ i ≤ n ∧ j < cols * 3
      then img (start_row rows size rank + (i - 1)) j else loc i j)
    0 _ _ loc (Nat.zero_le _) ?_ ?_ i j
  · intro i j
    rw [if_neg (by omega)]
  · intro n s _ _ ih i j
    rw [copyRow_apply, ih]
    by_cases h1 : i = n + 1
    · subst h1
      by_cases h2 : j < cols * 3
      · rw [if_pos ⟨rfl, h2⟩, if_pos ⟨by omega, le_refl _, h2⟩]
        rfl
      · rw [if_neg (by tauto), if_neg (by omega), if_neg (by omega)]
    · rw [if_neg (by tauto)]
      by_cases h3 : 1 ≤ i ∧ i ≤ n ∧ j < cols * 3
      · rw [if_pos h3, if_pos ⟨h3.1, by omega, h3.2.2⟩]
      · rw [if_neg h3, if_neg (by omega)]

/-- The inner loop of the gather (and the copy of rank 0's own rows): rows
`pos .. pos+n-1` of the image are overwritten with rows `1 .. n` of `l`. -/
theorem gatherRows_apply (g l : Img) (pos n cols i j : Nat) :
    forLoop 0 n (fun r (g : Img) => copyRow g (pos + r) (l (r + 1)) (cols * 3)) g i j =
      if pos ≤ i ∧ i < pos + n ∧ j < cols * 3 then l (i - pos + 1) j else g i j := by
  refine forLoop_inv
    (fun n (x : Img) => ∀ i j, x i j =
      if pos ≤ i ∧ i < pos + n ∧ j < cols * 3 then l (i - pos + 1) j else g i j)
    0 _ _ g (Nat.zero_le _) ?_ ?_ i j
  · intro i j
    rw [if_neg (by omega)]
  · intro n s _ _ ih i j
    rw [copyRow_apply, ih]
    by_cases h1 : i = pos + n
    · subst h1
      by_cases h2 : j < cols * 3
      · rw [if_pos ⟨rfl, h2⟩, if_pos ⟨by omega, by omega, h2⟩]
        congr 2
        omega
      · rw [if_neg (by tauto), if_neg (by omega), if_neg (by omega)]
    · rw [if_neg (by tauto)]
      by_cases h3 : pos ≤ i ∧ i < pos + n ∧ j < cols * 3
      · rw [if_pos h3, if_pos ⟨h3.1, by omega, h3.2.2⟩]
      · rw [if_neg h3, if_neg (by omega)]

/-- What the gather loops leave in the image: the rows of every rank, at
their place, and everything else as it was. -/
theorem gather_spec (img : Img) (rows cols size : Nat) (locs : Nat → Img) (h : 1 ≤ size) :
    (∀ p i j, p < size → i < local_rows rows size p → j < cols * 3 →
      gather img rows cols size locs (start_row rows size p + i) j = locs p (i + 1) j) ∧
    (∀ r j, rows ≤ r ∨ cols * 3 ≤ j → gather img rows cols size locs r j = img r j) := by
  unfold gather
  have key := forLoop_inv
    (fun n (st : Img × Nat) => st.2 = start_row rows size n ∧
      (∀ p i j, p < n → i < local_rows rows size p → j < cols * 3 →
        st.1 (start_row rows size p + i) j = locs p (i + 1) j) ∧
      (∀ r j, start_row rows size n ≤ r ∨ cols * 3 ≤ j → st.1 r j = img r j))
    1 size
    (fun p (st : Img × Nat) =>
      (forLoop 0 (local_rows rows size p)
        (fun r g => copyRow g (st.2 + r) (locs p (r + 1)) (cols * 3)) st.1,
        st.2 + local_rows rows size p))
    (forLoop 0 (local_rows rows size 0)
      (fun r g => copyRow g r (locs 0 (r + 1)) (cols * 3)) img, local_rows rows size 0)
    h ?_ ?_
  · dsimp only at key
    rw [start_row_size rows size h] at key
    exact ⟨key.2.1, key.2.2⟩
  · have e : ∀ i j, forLoop 0 (local_rows rows size 0)
        (fun r (g : Img) => copyRow g r (locs 0 (r + 1)) (cols * 3)) img i j =
        if 0 ≤ i ∧ i < 0 + local_rows rows size 0 ∧ j < cols * 3
        then locs 0 (i - 0 + 1) j else img i j := by
      intro i j
      have := gatherRows_apply img (locs 0) 0 (local_rows rows size 0) cols i j
      simp only [Nat.zero_add] at this
      simpa using this
    refine ⟨?_, ?_, ?_⟩
    · simp [start_row_succ, start_row_zero]
    · intro p i j hp hi hj
      have hp0 : p = 0 := by omega
      subst hp0
      simp only [start_row_zero, Nat.zero_add]
      rw [e, if_pos ⟨Nat.zero_le _, by omega, hj⟩]
      rfl
    · intro r j hr
      simp only [start_row_succ, start_row_zero, Nat.zero_add] at hr
      dsimp only
      rw [e, if_neg (by omega)]
  · rintro n ⟨g, pos⟩ hn1 hn2 ⟨hpos, hin, hout⟩
    dsimp only at hpos hin hout ⊢
    subst hpos
    refine ⟨(start_row_succ rows size n).symm, ?_, ?_⟩
    · intro p i j hp hi hj
      rw [gatherRows_apply]
      by_cases hpn : p = n
      · subst hpn
        rw [if_pos ⟨by omega, by omega, hj⟩]
        congr 2
        omega
      · have hlt : p < n := by omega
        have := start_row_mono rows size (show p + 1 ≤ n by omega)
        rw [start_row_succ] at this
        rw [if_neg (by omega)]
        exact hin p i j hlt hi hj
    · intro r j hr
      rw [start_row_succ] at hr
      rw [gatherRows_apply, if_neg (by omega)]
      exact hout r j (by omega)

/-- C4: with `steps = 0` the output is the input, for every grid and every
`worker_count >= 1`.  `ContrastStretchSerial` returns the input image; the
scatter puts global row `start_row p + i` into local row `i + 1` of rank `p`;
the gather brings that local row back to the same global row; and what rank 0
returns from `ContrastStretchMPI` is the input image. -/
theorem steps_zero_identity (K : Kernel) (tmp0 : Img) (alloc : Nat → Img × Img) (img : Img)
    (rows cols size : Nat) (h : 1 ≤ size) :
    ContrastStretchSerial K tmp0 img rows cols 0 = img ∧
    (∀ p i j, i < local_rows rows size p → j < cols * 3 →
      scatter img rows cols size (alloc p).1 p (i + 1) j = img (start_row rows size p + i) j) ∧
    (∀ (locs : Nat → Img) p i j, p < size → i < local_rows rows size p → j < cols * 3 →
      gather img rows cols size locs (start_row rows size p + i) j = locs p (i + 1) j) ∧
    ContrastStretchMPI K alloc img rows cols 0 size 0 = some img := by
  refine ⟨?_, ?_, ?_, ?_⟩
  · unfold ContrastStretchSerial
    dsimp only
    rw [forLoop_empty _ _ _ _ (by omega)]
  · intro p i j hi hj
    rw [scatter_apply, if_pos ⟨by omega, by omega, hj⟩]
    rfl
  · intro locs
    exact (gather_spec img rows cols size locs h).1
  · unfold ContrastStretchMPI mpiWorld
    rw [if_pos rfl, forLoop_empty _ _ _ _ (by omega)]
    congr 1
    funext r j
    by_cases hr : r < rows ∧ j < cols * 3
    · obtain ⟨hr, hj⟩ := hr
      rw [← start_row_size rows size h] at hr
      obtain ⟨p, hp, h1, h2⟩ := owner_exists rows size size r hr
      obtain ⟨i, rfl⟩ : ∃ i, r = start_row rows size p + i := ⟨r - start_row rows size p, by omega⟩
      rw [(gather_spec img rows cols size _ h).1 p i j hp (by omega) hj]
      dsimp only
      rw [scatter_apply, if_pos ⟨by omega, by omega, hj⟩]
      rfl
    · exact (gather_spec img rows cols size _ h).2 r j (by omega)

/-- C4 at 5 rows of 2 pixels on 3 workers. -/
theorem steps_zero_identity_witness :
    1 ≤ 3 ∧
    (ContrastStretchSerial (fun _ _ => 0) (fun _ _ => 0) (fun r j => Fin.ofNat (r + j)) 5 2 0
        = (fun r j => Fin.ofNat (r + j)) ∧
    (∀ p i j, i < local_rows 5 3 p → j < 2 * 3 →
      scatter (fun r j => Fin.ofNat (r + j)) 5 2 3 (fun _ _ => 0) p (i + 1) j
        = (fun r j => Fin.ofNat (r + j) : Img) (start_row 5 3 p + i) j) ∧
    (∀ (locs : Nat → Img) p i j, p < 3 → i < local_rows 5 3 p → j < 2 * 3 →
      gather (fun r j => Fin.ofNat (r + j)) 5 2 3 locs (start_row 5 3 p + i) j
        = locs p (i + 1) j) ∧
    ContrastStretchMPI (fun _ _ => 0) (fun _ => (fun _ _ => 0, fun _ _ => 0))
        (fun r j => Fin.ofNat (r + j)) 5 2 0 3 0 = some (fun r j => Fin.ofNat (r + j))) :=
  ⟨by decide, steps_zero_identity (fun _ _ => 0) (fun _ _ => 0)
    (fun _ => (fun _ _ => 0, fun _ _ => 0)) (fun r j => Fin.ofNat (r + j)) 5 2 3 (by decide)⟩

end CsMpi

namespace CsMpi

/-! ## Row loops, pointwise -/

/-- A loop over rows whose body rewrites, in row `r` only, the bytes picked by
`C` with values `v r`: its effect on the whole buffer. -/
theorem forLoop_rows (f : Nat → Img → Img) (C : Nat → Prop) [DecidablePred C]
    (v : Nat → Nat → uchar)
    (hf : ∀ r d i j, f r d i j = if i = r ∧ C j then v r j else d i j)
    (lo hi : Nat) (b : Img) (i j : Nat) :
    forLoop lo hi f b i j = if lo ≤ i ∧ i < hi ∧ C j then v i j else b i j := by
  by_cases hle : lo ≤ hi
  · refine forLoop_inv
      (fun n (x : Img) => ∀ i j, x i j = if lo ≤ i ∧ i < n ∧ C j then v i j else b i j)
      lo hi f b hle ?_ ?_ i j
    · intro i j
      rw [if_neg (by omega)]
    · intro n s _ _ ih i j
      rw [hf, ih]
      by_cases h1 : i = n ∧ C j
      · obtain ⟨h1, h2⟩ := h1
        subst h1
        rw [if_pos ⟨rfl, h2⟩, if_pos ⟨by omega, by omega, h2⟩]
      · rw [if_neg h1]
        by_cases h3 : lo ≤ i ∧ i < n ∧ C j
        · rw [if_pos h3, if_pos ⟨h3.1, by omega, h3.2.2⟩]
        · rw [if_neg h3, if_neg]
          rintro ⟨h4, h5, h6⟩
          have : i ≠ n := fun e => h1 ⟨e, h6⟩
          exact h3 ⟨h4, by omega, h6⟩
  · rw [forLoop_empty _ _ _ _ (by omega), if_neg (by omega)]

theorem copyEdgePixels_apply (d src : Img) (r cols i j : Nat) :
    copyEdgePixels d src r cols i j =
      if i = r ∧ (j < 3 ∨ ((cols - 1) * 3 ≤ j ∧ j < (cols - 1) * 3 + 3))
      then src r j else d i j := by
  unfold copyEdgePixels
  simp only [setByte_apply]
  by_cases hi : i = r
  · subst hi
    by_cases h1 : j = (cols - 1) * 3 + 2
    · subst h1
      rw [if_pos ⟨rfl, rfl⟩, if_pos ⟨rfl, by omega⟩]
    rw [if_neg (by tauto)]
    by_cases h2 : j = (cols - 1) * 3 + 1
    · subst h2
      rw [if_pos ⟨rfl, rfl⟩, if_pos ⟨rfl, by omega⟩]
    rw [if_neg (by tauto)]
    by_cases h3 : j = (cols - 1) * 3
    · subst h3
      rw [if_pos ⟨rfl, rfl⟩, if_pos ⟨rfl, by omega⟩]
    rw [if_neg (by tauto)]
    by_cases h4 : j = 2
    · subst h4
      rw [if_pos ⟨rfl, rfl⟩, if_pos ⟨rfl, by omega⟩]
    rw [if_neg (by tauto)]
    by_cases h5 : j = 1
    · subst h5
      rw [if_pos ⟨rfl, rfl⟩, if_pos ⟨rfl, by omega⟩]
    rw [if_neg (by tauto)]
    by_cases h6 : j = 0
    · subst h6
      rw [if_pos ⟨rfl, rfl⟩, if_pos ⟨rfl, by omega⟩]
    rw [if_neg (by tauto), if_neg (by omega)]
  · simp [hi]

theorem edgeLoop_apply (b src : Img) (lo hi cols i j : Nat) :
    forLoop lo hi (fun r d => copyEdgePixels d src r cols) b i j =
      if lo ≤ i ∧ i < hi ∧ (j < 3 ∨ ((cols - 1) * 3 ≤ j ∧ j < (cols - 1) * 3 + 3))
      then src i j else b i j :=
  forLoop_rows (fun r d => copyEdgePixels d src r cols)
    (fun j => j < 3 ∨ ((cols - 1) * 3 ≤ j ∧ j < (cols - 1) * 3 + 3)) (fun r j => src r j)
    (fun r d i j => copyEdgePixels_apply d src r cols i j) lo hi b i j

theorem stretched_at (K : Kernel) (src : Img) (r c k : Nat) (hk : k < 3) :
    stretched K src r (3 * c + k) = K (nbhd src r (3 * c)) ⟨k, hk⟩ := by
  unfold stretched
  have e1 : 3 * ((3 * c + k) / 3) = 3 * c := by omega
  have e2 : (3 * c + k) % 3 = k := by omega
  simp only [e1, e2]

theorem stretch_one_pixel_apply (K : Kernel) (d src : Img) (r c i j : Nat) :
    stretch_one_pixel K d src r (3 * c) i j =
      if i = r ∧ 3 * c ≤ j ∧ j < 3 * c + 3 then stretched K src r j else d i j := by
  unfold stretch_one_pixel
  simp only [setByte_apply]
  by_cases hi : i = r
  · subst hi
    by_cases h1 : j = 3 * c + 2
    · subst h1
      rw [if_pos ⟨rfl, rfl⟩, if_pos ⟨rfl, by omega, by omega⟩, stretched_at]
      rfl
    rw [if_neg (by tauto)]
    by_cases h2 : j = 3 * c + 1
    · subst h2
      rw [if_pos ⟨rfl, rfl⟩, if_pos ⟨rfl, by omega, by omega⟩, stretched_at]
      rfl
    rw [if_neg (by tauto)]
    by_cases h3 : j = 3 * c
    · subst h3
      rw [if_pos ⟨rfl, rfl⟩, if_pos ⟨rfl, by omega, by omega⟩]
      exact (stretched_at K src i c 0 (by decide)).symm
    rw [if_neg (by tauto), if_neg (by omega)]
  · simp [hi]

theorem stretchRow_apply (K : Kernel) (d src : Img) (r cols i j : Nat) :
    stretchRow K d src r cols i j =
      if i = r ∧ 3 ≤ j ∧ j < 3 * (cols - 1) then stretched K src r j else d i j := by
  unfold stretchRow
  by_cases hle : 1 ≤ cols - 1
  · have key := forLoop_inv
      (fun c (st : Img × Nat) => st.2 = 3 * c ∧ ∀ i j, st.1 i j =
        if i = r ∧ 3 ≤ j ∧ j < 3 * c then stretched K src r j else d i j)
      1 (cols - 1)
      (fun _ (st : Img × Nat) => (stretch_one_pixel K st.1 src r st.2, st.2 + 3)) (d, 3)
      hle ?_ ?_
    · exact key.2 i j
    · refine ⟨rfl, ?_⟩
      intro i j
      rw [if_neg (by omega)]
    · rintro c ⟨x, bc⟩ _ _ ⟨hbc, ih⟩
      dsimp only at hbc ih ⊢
      subst hbc
      refine ⟨by omega, ?_⟩
      intro i j
      rw [stretch_one_pixel_apply, ih]
      by_cases h1 : i = r ∧ 3 * c ≤ j ∧ j < 3 * c + 3
      · rw [if_pos h1, if_pos ⟨h1.1, by omega, by omega⟩]
      · rw [if_neg h1]
        by_cases h2 : i = r ∧ 3 ≤ j ∧ j < 3 * c
        · rw [if_pos h2, if_pos ⟨h2.1, h2.2.1, by omega⟩]
        · rw [if_neg h2, if_neg]
          rintro ⟨h3, h4, h5⟩
          by_cases h6 : j < 3 * c
          · exact h2 ⟨h3, h4, h6⟩
          · exact h1 ⟨h3, by omega, by omega⟩
  · rw [forLoop_empty _ _ _ _ (by omega), if_neg (by omega)]

theorem stretchRows_apply (K : Kernel) (d src : Img) (lo hi cols i j : Nat) :
    stretchRows K d src lo hi cols i j =
      if lo ≤ i ∧ i < hi ∧ (3 ≤ j ∧ j < 3 * (cols - 1)) then stretched K src i j else d i j :=
  forLoop_rows (fun r d => stretchRow K d src r cols)
    (fun j => 3 ≤ j ∧ j < 3 * (cols - 1)) (fun r j => stretched K src r j)
    (fun r d i j => stretchRow_apply K d src r cols i j) lo hi d i j

end CsMpi

namespace CsMpi

/-! ## Halo exchange -/

theorem haloUp_succ_apply (rows cols size : Nat) (locs : Nat → Img) (p i j : Nat) :
    haloUp rows cols size locs (p + 1) i j =
      if i = 0 ∧ j < cols * 3 then haloUp rows cols size locs p (local_rows rows size p) j
      else locs (p + 1) i j := by
  rw [haloUp, copyRow_apply]

/-- The first exchange writes ghost row 0 only. -/
theorem haloUp_owned (rows cols size : Nat) (locs : Nat → Img) (p i j : Nat) (hi : 1 ≤ i) :
    haloUp rows cols size locs p i j = locs p i j := by
  cases p with
  | zero => rfl
  | succ p => rw [haloUp_succ_apply, if_neg (by omega)]

theorem haloExchange_apply (rows cols size : Nat) (locs : Nat → Img) (p i j : Nat) :
    haloExchange rows cols size locs p i j =
      if p < size - 1 ∧ i = local_rows rows size p + 1 ∧ j < cols * 3 then locs (p + 1) 1 j
      else haloUp rows cols size locs p i j := by
  unfold haloExchange
  by_cases h : p < size - 1
  · rw [if_pos h, copyRow_apply]
    by_cases h2 : i = local_rows rows size p + 1 ∧ j < cols * 3
    · rw [if_pos h2, if_pos ⟨h, h2.1, h2.2⟩]
    · rw [if_neg h2, if_neg (by tauto)]
  · rw [if_neg h, if_neg (by tauto)]

/-- C5: when every worker owns at least one row, after the halo exchange of
an iteration ghost row 0 of every worker `p > 0` holds the last owned row
(row `local_rows (p-1)`) of worker `p-1`, ghost row `local_rows p + 1` of
every worker `p < worker_count - 1` holds the first owned row (row 1) of
worker `p+1`, and the owned rows `1 .. local_rows p` of every worker are as
they were before the exchange. -/
theorem halo_exchange_ghost_rows (rows cols size : Nat) (locs : Nat → Img)
    (hown : ∀ p, p < size → 1 ≤ local_rows rows size p) :
    (∀ p j, 0 < p → p < size → j < cols * 3 →
      haloExchange rows cols size locs p 0 j =
        haloExchange rows cols size locs (p - 1) (local_rows rows size (p - 1)) j ∧
      haloExchange rows cols size locs p 0 j =
        locs (p - 1) (local_rows rows size (p - 1)) j) ∧
    (∀ p j, p + 1 < size → j < cols * 3 →
      haloExchange rows cols size locs p (local_rows rows size p + 1) j =
        haloExchange rows cols size locs (p + 1) 1 j ∧
      haloExchange rows cols size locs p (local_rows rows size p + 1) j =
        locs (p + 1) 1 j) ∧
    (∀ p i j, p < size → 1 ≤ i → i ≤ local_rows rows size p →
      haloExchange rows cols size locs p i j = locs p i j) := by
  have owned : ∀ p i j, p < size → 1 ≤ i → i ≤ local_rows rows size p →
      haloExchange rows cols size locs p i j = locs p i j := by
    intro p i j _ h1 h2
    rw [haloExchange_apply, if_neg (by omega), haloUp_owned _ _ _ _ _ _ _ h1]
  refine ⟨?_, ?_, owned⟩
  · intro p j hp0 hp hj
    obtain ⟨q, rfl⟩ : ∃ q, p = q + 1 := ⟨p - 1, by omega⟩
    have hq := hown q (by omega)
    simp only [Nat.add_sub_cancel]
    rw [owned q _ j (by omega) hq (le_refl _)]
    have : haloExchange rows cols size locs (q + 1) 0 j
        = locs q (local_rows rows size q) j := by
      rw [haloExchange_apply, if_neg (by omega), haloUp_succ_apply, if_pos ⟨rfl, hj⟩,
        haloUp_owned _ _ _ _ _ _ _ hq]
    exact ⟨this, this⟩
  · intro p j hp hj
    have hq := hown (p + 1) hp
    rw [owned (p + 1) 1 j hp (le_refl _) hq]
    have : haloExchange rows cols size locs p (local_rows rows size p + 1) j
        = locs (p + 1) 1 j := by
      rw [haloExchange_apply, if_pos ⟨by omega, rfl, hj⟩]
    exact ⟨this, this⟩

/-- C5 at 7 rows of 2 pixels on 3 workers. -/
theorem halo_exchange_ghost_rows_witness :
    (∀ p, p < 3 → 1 ≤ local_rows 7 3 p) ∧
    ((∀ p j, 0 < p → p < 3 → j < 2 * 3 →
      haloExchange 7 2 3 (fun p r j => Fin.ofNat (100 * p + 10 * r + j)) p 0 j =
        haloExchange 7 2 3 (fun p r j => Fin.ofNat (100 * p + 10 * r + j)) (p - 1)
          (local_rows 7 3 (p - 1)) j ∧
      haloExchange 7 2 3 (fun p r j => Fin.ofNat (100 * p + 10 * r + j)) p 0 j =
        (fun p r j => Fin.ofNat (100 * p + 10 * r + j) : Nat → Img) (p - 1)
          (local_rows 7 3 (p - 1)) j) ∧
    (∀ p j, p + 1 < 3 → j < 2 * 3 →
      haloExchange 7 2 3 (fun p r j => Fin.ofNat (100 * p + 10 * r + j)) p
          (local_rows 7 3 p + 1) j =
        haloExchange 7 2 3 (fun p r j => Fin.ofNat (100 * p + 10 * r + j)) (p + 1) 1 j ∧
      haloExchange 7 2 3 (fun p r j => Fin.ofNat (100 * p + 10 * r + j)) p
          (local_rows 7 3 p + 1) j =
        (fun p r j => Fin.ofNat (100 * p + 10 * r + j) : Nat → Img) (p + 1) 1 j) ∧
    (∀ p i j, p < 3 → 1 ≤ i → i ≤ local_rows 7 3 p →
      haloExchange 7 2 3 (fun p r j => Fin.ofNat (100 * p + 10 * r + j)) p i j =
        (fun p r j => Fin.ofNat (100 * p + 10 * r + j) : Nat → Img) p i j)) :=
  ⟨by decide, halo_exchange_ghost_rows 7 2 3 (fun p r j => Fin.ofNat (100 * p + 10 * r + j))
    (by decide)⟩

/-! ## The local step -/

/-- The new current buffer of a rank after the local step, byte by byte. -/
theorem computeStep_apply (K : Kernel) (rows cols size rank : Nat) (loc loc2 : Img)
    (i j : Nat) :
    (computeStep K rows cols size rank loc loc2).1 i j =
      if (if rank = 0 then 2 else 1) ≤ i ∧
          i < (if rank = size - 1 then local_rows rows size rank - 1
            else local_rows rows size rank) + 1 ∧
          (3 ≤ j ∧ j < 3 * (cols - 1))
      then stretched K loc i j
      else if 1 ≤ i ∧ i < local_rows rows size rank + 1 ∧
          (j < 3 ∨ ((cols - 1) * 3 ≤ j ∧ j < (cols - 1) * 3 + 3))
      then loc i j
      else if i = local_rows rows size rank ∧ j < cols * 3
      then (if rank = size - 1 then loc (local_rows rows size rank) j
        else loc (local_rows rows size rank + 1) j)
      else if i = 1 ∧ j < cols * 3
      then (if rank = 0 then loc 1 j else loc 0 j)
      else loc2 i j := by
  unfold computeStep
  dsimp only
  rw [stretchRows_apply, edgeLoop_apply]
  congr 2
  by_cases h1 : rank = size - 1
  · simp only [if_pos h1]
    rw [copyRow_apply]
    by_cases h0 : rank = 0
    · simp only [if_pos h0, copyRow_apply]
    · simp only [if_neg h0, copyRow_apply]
  · simp only [if_neg h1]
    rw [copyRow_apply]
    by_cases h0 : rank = 0
    · simp only [if_pos h0, copyRow_apply]
    · simp only [if_neg h0, copyRow_apply]

theorem computeStep_snd (K : Kernel) (rows cols size rank : Nat) (loc loc2 : Img) :
    (computeStep K rows cols size rank loc loc2).2 = loc := rfl

/-- C9: in an iteration every byte of the owned rows `1 .. local_rows` of the
next buffer is written before the swap: after the swap the owned rows of the
current buffer are the same whatever the next buffer held before the
iteration, so they are a function of the previous current buffer alone; the
previous current buffer becomes the next buffer. -/
theorem owned_rows_fully_written (K : Kernel) (rows cols size rank : Nat)
    (loc loc2 loc2' : Img) (i j : Nat)
    (h1 : 1 ≤ i) (h2 : i ≤ local_rows rows size rank) (hj : j < cols * 3) :
    (computeStep K rows cols size rank loc loc2).1 i j =
      (computeStep K rows cols size rank loc loc2').1 i j ∧
    (computeStep K rows cols size rank loc loc2).2 = loc := by
  refine ⟨?_, rfl⟩
  rw [computeStep_apply, computeStep_apply]
  by_cases ha : (if rank = 0 then 2 else 1) ≤ i ∧
      i < (if rank = size - 1 then local_rows rows size rank - 1
        else local_rows rows size rank) + 1 ∧ (3 ≤ j ∧ j < 3 * (cols - 1))
  · rw [if_pos ha, if_pos ha]
  rw [if_neg ha, if_neg ha]
  by_cases hb : 1 ≤ i ∧ i < local_rows rows size rank + 1 ∧
      (j < 3 ∨ ((cols - 1) * 3 ≤ j ∧ j < (cols - 1) * 3 + 3))
  · rw [if_pos hb, if_pos hb]
  rw [if_neg hb, if_neg hb]
  by_cases hc : i = local_rows rows size rank ∧ j < cols * 3
  · rw [if_pos hc, if_pos hc]
  rw [if_neg hc, if_neg hc]
  by_cases hd : i = 1 ∧ j < cols * 3
  · rw [if_pos hd, if_pos hd]
  exfalso
  have hi1 : i ≠ 1 := fun e => hd ⟨e, hj⟩
  have hi2 : i ≠ local_rows rows size rank := fun e => hc ⟨e, hj⟩
  have hj1 : 3 ≤ j ∧ j < 3 * (cols - 1) := by
    by_contra hcon
    exact hb ⟨h1, by omega, by omega⟩
  apply ha
  refine ⟨?_, ?_, hj1⟩
  · split_ifs <;> omega
  · split_ifs <;> omega

/-- C9 on the middle rank of 3, at local row 2, byte 4, with two different next buffers. -/
theorem owned_rows_fully_written_witness :
    (1 ≤ 2 ∧ 2 ≤ local_rows 7 3 1 ∧ 4 < 3 * 3) ∧
    ((computeStep (fun nb c => nb 1 ⟨3 + c.val, by omega⟩) 7 3 3 1
        (fun r j => Fin.ofNat (10 * r + j)) (fun _ _ => 0)).1 2 4 =
      (computeStep (fun nb c => nb 1 ⟨3 + c.val, by omega⟩) 7 3 3 1
        (fun r j => Fin.ofNat (10 * r + j)) (fun _ _ => 255)).1 2 4 ∧
    (computeStep (fun nb c => nb 1 ⟨3 + c.val, by omega⟩) 7 3 3 1
        (fun r j => Fin.ofNat (10 * r + j)) (fun _ _ => 0)).2 =
      (fun r j => Fin.ofNat (10 * r + j))) :=
  ⟨by decide, owned_rows_fully_written (fun nb c => nb 1 ⟨3 + c.val, by omega⟩) 7 3 3 1
    (fun r j => Fin.ofNat (10 * r + j)) (fun _ _ => 0) (fun _ _ => 255) 2 4
    (by decide) (by decide) (by decide)⟩

end CsMpi

namespace CsMpi

/-! ## Rank 0 owning a single row -/

/-- When rank 0 owns exactly one row and is not the last rank, one iteration
leaves in that row, between the first and the last pixel, the bytes of rank
1's first row: the `memcpy` of line 186 overwrites what line 180 copied, and
the stretch starts at local row 2. -/
theorem rank0_single_row_overwritten (K : Kernel) (rows cols size : Nat) (w : Nat → Img × Img)
    (j : Nat) (h0 : local_rows rows size 0 = 1) (hs : 2 ≤ size) (hj1 : 3 ≤ j)
    (hj2 : j < 3 * (cols - 1)) :
    (mpiStep K rows cols size w 0).1 1 j = (w 1).1 1 j := by
  unfold mpiStep
  rw [computeStep_apply, h0]
  rw [if_neg (by simp), if_neg (by omega), if_pos ⟨rfl, by omega⟩, if_neg (by omega)]
  rw [haloExchange_apply, h0, if_pos ⟨by omega, rfl, by omega⟩]

/-- The defect behind C1 and C2 in general: with as many workers as rows (at
least 2) and one step, every byte of global row 0 between its first and last
pixel comes back as the byte of global row 1 of the input. -/
theorem equal_split_first_row_overwritten (K : Kernel) (alloc : Nat → Img × Img) (img : Img)
    (cols size j : Nat) (hs : 2 ≤ size) (hj1 : 3 ≤ j) (hj2 : j < 3 * (cols - 1)) :
    (ContrastStretchMPI K alloc img size cols 1 size 0).map (fun out => out 0 j)
      = some (img 1 j) := by
  have hlr : ∀ p, local_rows size size p = 1 := by
    intro p
    unfold local_rows
    rw [Nat.div_self (by omega), Nat.mod_self, if_neg (by omega)]
  unfold ContrastStretchMPI
  rw [if_pos rfl, Option.map_some']
  congr 1
  have g := (gather_spec img size cols size
    (fun p => (mpiWorld K alloc img size cols 1 size p).1) (by omega)).1 0 0 j
    (by omega) (by rw [hlr]; omega) (by omega)
  rw [start_row_zero] at g
  rw [g]
  unfold mpiWorld
  rw [forLoop_succ _ _ _ _ (le_refl _), forLoop_empty _ _ _ _ (le_refl _)]
  rw [rank0_single_row_overwritten K size cols size _ j (hlr 0) hs hj1 hj2]
  dsimp only
  rw [scatter_apply, if_pos ⟨le_refl _, by rw [hlr], by omega⟩, start_row_succ,
    start_row_zero, hlr]

/-- C1, at the failing input: 4 rows on 4 workers, 3 columns, 1 step.
Whatever kernel, fresh buffers and image, byte 3 of row 0 that rank 0 gets
back from `ContrastStretchMPI` is byte 3 of row 1 of the input, while
`ContrastStretchSerial` returns byte 3 of row 0 of the input there. -/
theorem mpi_differs_from_serial_four_workers (K : Kernel) (tmp0 : Img)
    (alloc : Nat → Img × Img) (img : Img) :
    (ContrastStretchMPI K alloc img 4 3 1 4 0).map (fun out => out 0 3) = some (img 1 3) ∧
    ContrastStretchSerial K tmp0 img 4 3 1 0 3 = img 0 3 :=
  ⟨rfl, rfl⟩

/-- C2, at the failing input: 2 rows on 2 workers, 3 columns, 1 step.
Whatever kernel, fresh buffers and image, byte 4 of global row 0 of the grid
rank 0 gets back is byte 4 of row 1 of the input, not byte 4 of row 0. -/
theorem mpi_first_row_overwritten (K : Kernel) (alloc : Nat → Img × Img) (img : Img) :
    (ContrastStretchMPI K alloc img 2 3 1 2 0).map (fun out => out 0 4) = some (img 1 4) :=
  rfl

/-! ## More workers than rows -/

/-- C8, counterexample: 1 row of 3 pixels (every byte 5) on 2 workers, 1 step,
fresh `loc` buffers holding 77.  The worker count exceeds the rows and rank 0
returns a grid all the same; byte 3 of its row 0 is byte 3 of row 1 of the
buffer that rank 1 allocated and never filled. -/
theorem more_workers_than_rows_returns_grid :
    1 < 2 ∧
    (ContrastStretchMPI (fun _ _ => 0) (fun _ => (fun _ _ => 77, fun _ _ => 0))
      (fun _ _ => 5) 1 3 1 2 0).map (fun out => (out 0 0, out 0 3)) = some (5, 77) := by
  decide

/-- C8, as amended: `ContrastStretchMPI` has no rejecting path.  When
`worker_count` exceeds `rows`, the ranks below `rows` own one row each, the
ranks from `rows` on own none, rank 0 returns a grid and every other rank
the null pointer. -/
theorem more_workers_than_rows_not_rejected (K : Kernel) (alloc : Nat → Img × Img)
    (img : Img) (rows cols steps size : Nat) (h : rows < size) :
    (∃ out, ContrastStretchMPI K alloc img rows cols steps size 0 = some out) ∧
    (∀ rank, rank ≠ 0 → ContrastStretchMPI K alloc img rows cols steps size rank = none) ∧
    (∀ p, p < rows → local_rows rows size p = 1) ∧
    (∀ p, rows ≤ p → local_rows rows size p = 0) := by
  have hd : rows / size = 0 := Nat.div_eq_of_lt h
  have hm : rows % size = rows := Nat.mod_eq_of_lt h
  refine ⟨⟨_, if_pos rfl⟩, fun rank hr => if_neg hr, ?_, ?_⟩
  · intro p hp
    unfold local_rows
    rw [hd, hm, if_pos hp]
  · intro p hp
    unfold local_rows
    rw [hd, hm, if_neg (by omega)]

/-- C8 as amended, at 1 row on 2 workers. -/
theorem more_workers_than_rows_not_rejected_witness :
    1 < 2 ∧
    ((∃ out, ContrastStretchMPI (fun _ _ => 0) (fun _ => (fun _ _ => 77, fun _ _ => 0))
      (fun _ _ => 5) 1 3 1 2 0 = some out) ∧
    (∀ rank, rank ≠ 0 → ContrastStretchMPI (fun _ _ => 0)
      (fun _ => (fun _ _ => 77, fun _ _ => 0)) (fun _ _ => 5) 1 3 1 2 rank = none) ∧
    (∀ p, p < 1 → local_rows 1 2 p = 1) ∧
    (∀ p, 1 ≤ p → local_rows 1 2 p = 0)) :=
  ⟨by decide, more_workers_than_rows_not_rejected (fun _ _ => 0)
    (fun _ => (fun _ _ => 77, fun _ _ => 0)) (fun _ _ => 5) 1 3 1 2 (by decide)⟩

/-! ## Exit codes -/

/-- C7, at the failing input: with three arguments (`argc = 3`) `main` prints
the usage line and returns exit code 0, on every rank and whatever else it is
given; with `argc = 4` an unreadable input gives exit code 1 and a readable
one exit code 0. -/
theorem main_usage_error_exit_code (K : Kernel) (tmp0 : Img) (alloc : Nat → Img × Img)
    (steps : Int) (file : Option (Img × Nat × Nat)) (image : Img) (rows cols size rank : Nat) :
    main K tmp0 alloc 3 steps file size rank = (0, none) ∧
    (main K tmp0 alloc 4 steps none size rank).1 = 1 ∧
    (main K tmp0 alloc 4 steps (some (image, rows, cols)) size rank).1 = 0 := by
  refine ⟨?_, ?_, ?_⟩
  · unfold main
    rw [if_pos (by decide)]
  · unfold main
    rw [if_neg (by decide)]
  · unfold main
    rw [if_neg (by decide)]

end CsMpi

namespace MergeSort

/-! ## Segments of an array -/

end MergeSort

namespace MergeSort

/-! ## `merge` and `mergesort` -/

end MergeSort

namespace CsMpi

/-! ## The serial driver against the reference -/

theorem stretched_congr (K : Kernel) (a b : Img) (r r' j : Nat)
    (h : ∀ (dr : Fin 3) (dc : Fin 9),
      a (r + dr.val - 1) (3 * (j / 3) + dc.val - 3) =
        b (r' + dr.val - 1) (3 * (j / 3) + dc.val - 3)) :
    stretched K a r j = stretched K b r' j := by
  unfold stretched nbhd
  congr 1
  funext dr dc
  exact h dr dc

theorem serialRef_succ_apply (K : Kernel) (img : Img) (rows cols s r j : Nat) :
    serialRef K img rows cols (s + 1) r j =
      if 1 ≤ r ∧ r < rows - 1 ∧ (3 ≤ j ∧ j < 3 * (cols - 1))
      then stretched K (serialRef K img rows cols s) r j else img r j := rfl

theorem serialRef_boundary (K : Kernel) (img : Img) (rows cols s r j : Nat)
    (h : ¬ (1 ≤ r ∧ r < rows - 1 ∧ (3 ≤ j ∧ j < 3 * (cols - 1)))) :
    serialRef K img rows cols s r j = img r j := by
  cases s with
  | zero => rfl
  | succ s => rw [serialRef_succ_apply, if_neg h]

theorem copy_boundary_apply (dest src : Img) (rows cols r j : Nat) (hr : r < rows)
    (hj : j < cols * 3) (h : ¬ (1 ≤ r ∧ r < rows - 1 ∧ (3 ≤ j ∧ j < 3 * (cols - 1)))) :
    copy_boundary dest src rows cols r j = src r j := by
  unfold copy_boundary
  rw [edgeLoop_apply]
  by_cases he : j < 3 ∨ ((cols - 1) * 3 ≤ j ∧ j < (cols - 1) * 3 + 3)
  · rw [if_pos ⟨Nat.zero_le _, hr, he⟩]
  · rw [if_neg (by tauto), copyRow_apply]
    by_cases h1 : r = rows - 1
    · rw [if_pos ⟨h1, hj⟩, h1]
    · rw [if_neg (by tauto), copyRow_apply]
      have h0 : r = 0 := by omega
      rw [if_pos ⟨h0, hj⟩, h0]

/-- The state `(img, tmp)` of the serial loop after `s` iterations: inside
the grid `img` is the reference grid, and `tmp` carries the input's
boundary. -/
theorem serial_loop_state (K : Kernel) (tmp0 img : Img) (rows cols s : Nat) :
    (∀ r j, r < rows → j < cols * 3 →
      (forLoop 1 (s + 1)
        (fun _ (st : Img × Img) => (stretchRows K st.2 st.1 1 (rows - 1) cols, st.1))
        (img, copy_boundary tmp0 img rows cols)).1 r j = serialRef K img rows cols s r j) ∧
    (∀ r j, r < rows → j < cols * 3 →
      ¬ (1 ≤ r ∧ r < rows - 1 ∧ (3 ≤ j ∧ j < 3 * (cols - 1))) →
      (forLoop 1 (s + 1)
        (fun _ (st : Img × Img) => (stretchRows K st.2 st.1 1 (rows - 1) cols, st.1))
        (img, copy_boundary tmp0 img rows cols)).2 r j = img r j) := by
  induction s with
  | zero =>
    rw [forLoop_empty _ _ _ _ (le_refl _)]
    exact ⟨fun _ _ _ _ => rfl,
      fun r j hr hj h => copy_boundary_apply tmp0 img rows cols r j hr hj h⟩
  | succ s ih =>
    rw [forLoop_succ _ _ _ _ (by omega)]
    obtain ⟨ih1, ih2⟩ := ih
    dsimp only
    constructor
    · intro r j hr hj
      rw [stretchRows_apply, serialRef_succ_apply]
      by_cases hin : 1 ≤ r ∧ r < rows - 1 ∧ (3 ≤ j ∧ j < 3 * (cols - 1))
      · rw [if_pos hin, if_pos hin]
        apply stretched_congr
        intro dr dc
        have := dr.isLt
        have := dc.isLt
        exact ih1 _ _ (by omega) (by omega)
      · rw [if_neg hin, if_neg hin]
        exact ih2 r j hr hj hin
    · intro r j hr hj hin
      rw [ih1 r j hr hj]
      exact serialRef_boundary K img rows cols s r j hin

theorem serial_eq_ref (K : Kernel) (tmp0 img : Img) (rows cols steps r j : Nat)
    (hr : r < rows) (hj : j < cols * 3) :
    ContrastStretchSerial K tmp0 img rows cols steps r j = serialRef K img rows cols steps r j :=
  (serial_loop_state K tmp0 img rows cols steps).1 r j hr hj

end CsMpi

namespace CsMpi

/-! ## The distributed driver against the reference -/

theorem local_rows_pos (rows size p : Nat) (hs : 1 ≤ size) (hr : size ≤ rows) :
    1 ≤ local_rows rows size p := by
  unfold local_rows
  have : 0 < rows / size := Nat.div_pos hr (by omega)
  omega

theorem local_rows_zero_ge_two (rows size : Nat) (hs : 1 ≤ size) (hr : size < rows) :
    2 ≤ local_rows rows size 0 := by
  unfold local_rows
  have h1 : 0 < rows / size := Nat.div_pos (le_of_lt hr) (by omega)
  have h2 := Nat.div_add_mod rows size
  by_cases h3 : 0 < rows % size
  · rw [if_pos h3]
    omega
  · rw [if_neg h3]
    have h4 : rows % size = 0 := by omega
    rw [h4, Nat.add_zero] at h2
    by_contra hcon
    have h5 : rows / size = 1 := by omega
    rw [h5, Nat.mul_one] at h2
    omega

theorem start_row_add_le (rows size p : Nat) (hs : 1 ≤ size) (hp : p < size) :
    start_row rows size p + local_rows rows size p ≤ rows := by
  have := start_row_mono rows size (show p + 1 ≤ size by omega)
  rw [start_row_succ, start_row_size rows size hs] at this
  exact this

/-- What a rank reads after the halo exchange, when the owned rows of every
rank hold the reference grid: its owned rows and the ghost rows it received
hold the reference grid at the matching global rows. -/
theorem haloExchange_ref (g : Img) (rows cols size : Nat) (hs : 1 ≤ size) (hr : size ≤ rows)
    (locs : Nat → Img)
    (hw : ∀ p i j, p < size → 1 ≤ i → i ≤ local_rows rows size p → j < cols * 3 →
      locs p i j = g (start_row rows size p + i - 1) j)
    (p i j : Nat) (hp : p < size) (hj : j < cols * 3)
    (hi : i ≤ local_rows rows size p + 1) (hlo : 1 ≤ i ∨ 0 < p)
    (hhi : i ≤ local_rows rows size p ∨ p + 1 < size) :
    haloExchange rows cols size locs p i j = g (start_row rows size p + i - 1) j := by
  rw [haloExchange_apply]
  by_cases h1 : i = local_rows rows size p + 1
  · have hp1 : p + 1 < size := by omega
    rw [if_pos ⟨by omega, h1, hj⟩, hw (p + 1) 1 j hp1 (le_refl _)
      (local_rows_pos rows size _ hs hr) hj, start_row_succ, h1]
    congr 1
  · rw [if_neg (fun h => h1 h.2.1)]
    by_cases h2 : 1 ≤ i
    · rw [haloUp_owned _ _ _ _ _ _ _ h2]
      exact hw p i j hp h2 (by omega) hj
    · have hi0 : i = 0 := by omega
      subst hi0
      obtain ⟨q, rfl⟩ : ∃ q, p = q + 1 := ⟨p - 1, by omega⟩
      have hq := local_rows_pos rows size q hs hr
      rw [haloUp_succ_apply, if_pos ⟨rfl, hj⟩, haloUp_owned _ _ _ _ _ _ _ hq,
        hw q _ j (by omega) hq (le_refl _) hj, start_row_succ]
      congr 1

/-- One iteration keeps the owned rows of every rank equal to the reference
grid, when there are more rows than ranks. -/
theorem mpiStep_ref (K : Kernel) (img : Img) (rows cols size s : Nat)
    (hs : 1 ≤ size) (hr : size < rows) (w : Nat → Img × Img)
    (hw : ∀ p i j, p < size → 1 ≤ i → i ≤ local_rows rows size p → j < cols * 3 →
      (w p).1 i j = serialRef K img rows cols s (start_row rows size p + i - 1) j)
    (p i j : Nat) (hp : p < size) (hi1 : 1 ≤ i) (hi2 : i ≤ local_rows rows size p)
    (hj : j < cols * 3) :
    (mpiStep K rows cols size w p).1 i j =
      serialRef K img rows cols (s + 1) (start_row rows size p + i - 1) j := by
  have hloc := fun i j => haloExchange_ref (serialRef K img rows cols s) rows cols size hs
    (le_of_lt hr) (fun p => (w p).1) hw p i j hp
  have hsp := start_row_add_le rows size p hs hp
  have hlast : p = size - 1 → start_row rows size p + local_rows rows size p = rows := by
    intro e
    have := start_row_size rows size hs
    have e2 : size = p + 1 := by omega
    rw [e2, start_row_succ] at this
    rw [e2]
    exact this
  have hnlast : p ≠ size - 1 →
      start_row rows size p + local_rows rows size p + 1 ≤ rows := by
    intro e
    have h1 := start_row_add_le rows size (p + 1) hs (by omega)
    have h2 := local_rows_pos rows size (p + 1) hs (le_of_lt hr)
    rw [start_row_succ] at h1
    omega
  have hp0 : p ≠ 0 → 2 ≤ start_row rows size p := by
    intro e
    have h1 := start_row_mono rows size (show 0 + 1 ≤ p by omega)
    rw [start_row_succ, start_row_zero] at h1
    have h2 := local_rows_zero_ge_two rows size hs hr
    omega
  have hst0 : p = 0 → start_row rows size p = 0 := by
    intro e
    rw [e, start_row_zero]
  have hl0 : p = 0 → 2 ≤ local_rows rows size p := by
    intro e
    rw [e]
    exact local_rows_zero_ge_two rows size hs hr
  unfold mpiStep
  rw [computeStep_apply, serialRef_succ_apply]
  generalize hrs : (if p = 0 then 2 else 1) = rs
  generalize hre : (if p = size - 1 then local_rows rows size p - 1
    else local_rows rows size p) = re
  have hrs0 : p = 0 → rs = 2 := fun e => by rw [← hrs, if_pos e]
  have hrs1 : p ≠ 0 → rs = 1 := fun e => by rw [← hrs, if_neg e]
  have hre0 : p = size - 1 → re = local_rows rows size p - 1 := fun e => by
    rw [← hre, if_pos e]
  have hre1 : p ≠ size - 1 → re = local_rows rows size p := fun e => by
    rw [← hre, if_neg e]
  clear hrs hre
  generalize hlr : local_rows rows size p = lr at *
  generalize hst : start_row rows size p = st at *
  by_cases hjin : 3 ≤ j ∧ j < 3 * (cols - 1)
  · by_cases hA : rs ≤ i ∧ i < re + 1
    · have hg : 1 ≤ st + i - 1 ∧ st + i - 1 < rows - 1 := by
        constructor
        · by_cases e0 : p = 0
          · have := hrs0 e0
            omega
          · have := hp0 e0
            omega
        · by_cases e1 : p = size - 1
          · have := hre0 e1
            have := hlast e1
            omega
          · have := hre1 e1
            have := hnlast e1
            omega
      rw [if_pos ⟨hA.1, hA.2, hjin⟩, if_pos ⟨hg.1, hg.2, hjin⟩]
      apply stretched_congr
      intro dr dc
      have hdr := dr.isLt
      have hdc := dc.isLt
      have e : st + i - 1 + dr.val - 1 = st + (i + dr.val - 1) - 1 := by omega
      rw [e]
      refine hloc _ _ (by omega) ?_ ?_ ?_
      · by_cases e1 : p = size - 1
        · have := hre0 e1
          omega
        · have := hre1 e1
          omega
      · by_cases e0 : p = 0
        · have := hrs0 e0
          omega
        · omega
      · by_cases e1 : p = size - 1
        · have := hre0 e1
          omega
        · omega
    · rw [if_neg (fun h => hA ⟨h.1, h.2.1⟩), if_neg (by omega)]
      by_cases hc : i = lr
      · have e1 : p = size - 1 := by
          by_contra e1
          have := hre1 e1
          by_cases e0 : p = 0
          · have := hrs0 e0
            have := hl0 e0
            omega
          · have := hrs1 e0
            omega
        rw [if_pos ⟨hc, hj⟩, if_pos e1, hloc lr j hj (by omega) (by omega) (by omega)]
        subst hc
        have := hlast e1
        rw [if_neg (by omega)]
        exact serialRef_boundary K img rows cols s _ j (by omega)
      · have e0 : p = 0 := by
          by_contra e0
          have := hrs1 e0
          by_cases e1 : p = size - 1
          · have := hre0 e1
            omega
          · have := hre1 e1
            omega
        have hi : i = 1 := by
          have := hrs0 e0
          by_cases e1 : p = size - 1
          · have := hre0 e1
            omega
          · have := hre1 e1
            omega
        rw [if_neg (fun h => hc h.1), if_pos ⟨hi, hj⟩, if_pos e0,
          hloc 1 j hj (by omega) (by omega) (by omega)]
        have := hst0 e0
        rw [if_neg (by omega), hi]
        exact serialRef_boundary K img rows cols s _ j (by omega)
  · rw [if_neg (fun h => hjin h.2.2), if_pos ⟨hi1, by omega, by omega⟩,
      if_neg (fun h => hjin h.2.2), hloc i j hj (by omega) (by omega) (by omega)]
    exact serialRef_boundary K img rows cols s _ j (fun h => hjin h.2.2)

/-- After the scatter and `s` iterations the owned rows of every rank hold the
reference grid. -/
theorem mpiWorld_ref (K : Kernel) (alloc : Nat → Img × Img) (img : Img)
    (rows cols size : Nat) (hs : 1 ≤ size) (hr : size < rows) (s : Nat) :
    ∀ p i j, p < size → 1 ≤ i → i ≤ local_rows rows size p → j < cols * 3 →
      (mpiWorld K alloc img rows cols s size p).1 i j =
        serialRef K img rows cols s (start_row rows size p + i - 1) j := by
  induction s with
  | zero =>
    intro p i j _ hi1 hi2 hj
    unfold mpiWorld
    rw [forLoop_empty _ _ _ _ (le_refl _)]
    dsimp only
    rw [scatter_apply, if_pos ⟨hi1, hi2, hj⟩]
    have e : start_row rows size p + (i - 1) = start_row rows size p + i - 1 := by omega
    rw [e]
    rfl
  | succ s ih =>
    intro p i j hp hi1 hi2 hj
    have e : mpiWorld K alloc img rows cols (s + 1) size =
        mpiStep K rows cols size (mpiWorld K alloc img rows cols s size) := by
      unfold mpiWorld
      rw [forLoop_succ _ _ _ _ (by omega)]
    rw [e]
    exact mpiStep_ref K img rows cols size s hs hr _ ih p i j hp hi1 hi2 hj

end CsMpi

namespace CsMpi

/-! ## Worker-count invariance and edge invariance, with more rows than workers -/

/-- The grid rank 0 gets back is, inside the grid, the reference grid, when
there are more rows than ranks. -/
theorem mpi_eq_ref (K : Kernel) (alloc : Nat → Img × Img) (img : Img)
    (rows cols steps size : Nat) (hs : 1 ≤ size) (hr : size < rows) (r j : Nat)
    (hrow : r < rows) (hj : j < cols * 3) :
    gather img rows cols size (fun p => (mpiWorld K alloc img rows cols steps size p).1) r j =
      serialRef K img rows cols steps r j := by
  have hrow2 := hrow
  rw [← start_row_size rows size hs] at hrow2
  obtain ⟨p, hp, h1, h2⟩ := owner_exists rows size size r hrow2
  obtain ⟨i, rfl⟩ : ∃ i, r = start_row rows size p + i := ⟨r - start_row rows size p, by omega⟩
  rw [(gather_spec img rows cols size _ hs).1 p i j hp (by omega) hj]
  exact mpiWorld_ref K alloc img rows cols size hs hr steps p (i + 1) j hp (by omega)
    (by omega) hj

/-- Worker-count invariance where it holds: with `1 <= worker_count < rows`,
for every kernel, image, fresh-buffer content and `steps`, rank 0 gets a grid
back from `ContrastStretchMPI` and every byte of it inside the grid is the
byte `ContrastStretchSerial` returns. -/
theorem mpi_eq_serial_more_rows_than_workers (K : Kernel) (tmp0 : Img)
    (alloc : Nat → Img × Img) (img : Img) (rows cols steps size : Nat)
    (hs : 1 ≤ size) (hr : size < rows) :
    ∃ out, ContrastStretchMPI K alloc img rows cols steps size 0 = some out ∧
      ∀ r j, r < rows → j < cols * 3 →
        out r j = ContrastStretchSerial K tmp0 img rows cols steps r j := by
  refine ⟨_, if_pos rfl, ?_⟩
  intro r j hrow hj
  rw [mpi_eq_ref K alloc img rows cols steps size hs hr r j hrow hj,
    serial_eq_ref K tmp0 img rows cols steps r j hrow hj]

/-- Worker-count invariance at 9 rows of 5 pixels on 4 workers, 3 steps. -/
theorem mpi_eq_serial_more_rows_than_workers_witness :
    (1 ≤ 4 ∧ 4 < 9) ∧
    ∃ out, ContrastStretchMPI (fun nb c => nb 0 ⟨3 + c.val, by omega⟩ + nb 2 ⟨6 + c.val, by omega⟩)
        (fun _ => (fun _ _ => 1, fun _ _ => 2)) (fun r j => Fin.ofNat (7 * r + j)) 9 5 3 4 0
        = some out ∧
      ∀ r j, r < 9 → j < 5 * 3 →
        out r j = ContrastStretchSerial
          (fun nb c => nb 0 ⟨3 + c.val, by omega⟩ + nb 2 ⟨6 + c.val, by omega⟩)
          (fun _ _ => 3) (fun r j => Fin.ofNat (7 * r + j)) 9 5 3 r j :=
  ⟨by decide, mpi_eq_serial_more_rows_than_workers _ _ _ _ 9 5 3 4 (by decide) (by decide)⟩

/-- Edge invariance of the serial driver: for every input and `steps`, row 0,
row `rows-1`, the first pixel and the last pixel of every row of the grid
`ContrastStretchSerial` returns are those of the input. -/
theorem serial_edges_unchanged (K : Kernel) (tmp0 img : Img) (rows cols steps r j : Nat)
    (hrow : r < rows) (hj : j < cols * 3)
    (hedge : r = 0 ∨ r = rows - 1 ∨ j < 3 ∨ 3 * (cols - 1) ≤ j) :
    ContrastStretchSerial K tmp0 img rows cols steps r j = img r j := by
  rw [serial_eq_ref K tmp0 img rows cols steps r j hrow hj]
  exact serialRef_boundary K img rows cols steps r j (by omega)

/-- Edge invariance of the serial driver at the last row of a 4 x 5 grid, 6 steps. -/
theorem serial_edges_unchanged_witness :
    (3 < 4 ∧ 7 < 5 * 3 ∧ (3 = 0 ∨ 3 = 4 - 1 ∨ 7 < 3 ∨ 3 * (5 - 1) ≤ 7)) ∧
    ContrastStretchSerial (fun nb c => nb 0 ⟨3 + c.val, by omega⟩) (fun _ _ => 3)
      (fun r j => Fin.ofNat (7 * r + j)) 4 5 6 3 7 = (fun r j => Fin.ofNat (7 * r + j) : Img) 3 7 :=
  ⟨by decide, serial_edges_unchanged _ _ _ 4 5 6 3 7 (by decide) (by decide) (by decide)⟩

/-- Edge invariance of the distributed driver where it holds: with
`1 <= worker_count < rows`, row 0, row `rows-1`, the first pixel and the last
pixel of every row of the grid rank 0 gets back are those of the input. -/
theorem mpi_edges_unchanged_more_rows_than_workers (K : Kernel) (alloc : Nat → Img × Img)
    (img : Img) (rows cols steps size : Nat) (hs : 1 ≤ size) (hr : size < rows) :
    ∃ out, ContrastStretchMPI K alloc img rows cols steps size 0 = some out ∧
      ∀ r j, r < rows → j < cols * 3 →
        (r = 0 ∨ r = rows - 1 ∨ j < 3 ∨ 3 * (cols - 1) ≤ j) → out r j = img r j := by
  refine ⟨_, if_pos rfl, ?_⟩
  intro r j hrow hj hedge
  rw [mpi_eq_ref K alloc img rows cols steps size hs hr r j hrow hj]
  exact serialRef_boundary K img rows cols steps r j (by omega)

/-- Edge invariance of the distributed driver at 4 rows of 4 pixels on 2 workers. -/
theorem mpi_edges_unchanged_more_rows_than_workers_witness :
    (1 ≤ 2 ∧ 2 < 4) ∧
    ∃ out, ContrastStretchMPI (fun nb c => nb 0 ⟨3 + c.val, by omega⟩)
        (fun _ => (fun _ _ => 1, fun _ _ => 2)) (fun r j => Fin.ofNat (7 * r + j)) 4 4 1 2 0
        = some out ∧
      ∀ r j, r < 4 → j < 4 * 3 →
        (r = 0 ∨ r = 4 - 1 ∨ j < 3 ∨ 3 * (4 - 1) ≤ j) →
        out r j = (fun r j => Fin.ofNat (7 * r + j) : Img) r j :=
  ⟨by decide, mpi_edges_unchanged_more_rows_than_workers _ _ _ 4 4 1 2 (by decide) (by decide)⟩

end CsMpi

namespace Schedule

/-! ## Transfers commute -/

theorem exec_append (s : State) (a b : List Msg) :
    exec s (a ++ b) = (exec s a).bind (fun s' => exec s' b) := by
  induction a generalizing s with
  | nil => rfl
  | cons m a ih =>
    rw [List.cons_append, exec, exec]
    by_cases h : enabled s m
    · rw [if_pos h, if_pos h, ih]
    · rw [if_neg h, if_neg h]
      rfl

theorem exec_cons_some {s : State} {m : Msg} {ms : List Msg} {f : State}
    (h : exec s (m :: ms) = some f) : enabled s m ∧ exec (fire s m) ms = some f := by
  rw [exec] at h
  by_cases he : enabled s m
  · rw [if_pos he] at h
    exact ⟨he, h⟩
  · rw [if_neg he] at h
    exact absurd h (by simp)

theorem openSend_doneRecv (l : List Call) (x : Nat × Nat) (h : openSend l = some x) :
    openSend (doneRecv l) = some x := by
  cases l with
  | nil => exact absurd h (by simp [openSend])
  | cons c rest =>
    obtain ⟨cs, cr⟩ := c
    simp only [openSend] at h
    subst h
    rfl

theorem openRecv_doneSend (l : List Call) (x : Nat × Nat) (h : openRecv l = some x) :
    openRecv (doneSend l) = some x := by
  cases l with
  | nil => exact absurd h (by simp [openRecv])
  | cons c rest =>
    obtain ⟨cs, cr⟩ := c
    simp only [openRecv] at h
    subst h
    rfl

theorem doneRecv_doneSend (l : List Call) (x y : Nat × Nat) (h1 : openSend l = some x)
    (h2 : openRecv l = some y) : doneRecv (doneSend l) = doneSend (doneRecv l) := by
  cases l with
  | nil => rfl
  | cons c rest =>
    obtain ⟨cs, cr⟩ := c
    simp only [openSend] at h1
    simp only [openRecv] at h2
    subst h1 h2
    rfl

/-- Two different transfers that can both happen do not disturb each other:
each can still happen after the other, and the two orders lead to the same
state. -/
theorem fire_comm (s : State) (m1 m2 : Msg) (hne : m1 ≠ m2) (h1 : enabled s m1)
    (h2 : enabled s m2) :
    enabled (fire s m1) m2 ∧ fire (fire s m1) m2 = fire (fire s m2) m1 := by
  obtain ⟨a1, b1, t1⟩ := m1
  obtain ⟨a2, b2, t2⟩ := m2
  obtain ⟨hab1, hs1, hr1⟩ := h1
  obtain ⟨hab2, hs2, hr2⟩ := h2
  dsimp only at hab1 hs1 hr1 hab2 hs2 hr2
  have haa : a1 ≠ a2 := by
    intro e
    subst e
    rw [hs1] at hs2
    simp only [Option.some.injEq, Prod.mk.injEq] at hs2
    obtain ⟨e1, e2⟩ := hs2
    subst e1 e2
    exact hne rfl
  have hbb : b1 ≠ b2 := by
    intro e
    subst e
    rw [hr1] at hr2
    simp only [Option.some.injEq, Prod.mk.injEq] at hr2
    obtain ⟨e1, e2⟩ := hr2
    subst e1 e2
    exact hne rfl
  refine ⟨⟨hab2, ?_, ?_⟩, ?_⟩
  · show openSend (fire s ⟨a1, b1, t1⟩ a2) = some (b2, t2)
    unfold fire
    dsimp only
    rw [if_neg (Ne.symm haa)]
    by_cases e : a2 = b1
    · rw [if_pos e]
      exact openSend_doneRecv _ _ hs2
    · rw [if_neg e]
      exact hs2
  · show openRecv (fire s ⟨a1, b1, t1⟩ b2) = some (a2, t2)
    unfold fire
    dsimp only
    by_cases e : b2 = a1
    · rw [if_pos e]
      exact openRecv_doneSend _ _ hr2
    · rw [if_neg e, if_neg (Ne.symm hbb)]
      exact hr2
  · funext r
    unfold fire
    dsimp only
    by_cases e1 : r = a1
    · have n2 : ¬ r = b1 := fun e => hab1 (e1.symm.trans e)
      have n3 : ¬ r = a2 := fun e => haa (e1.symm.trans e)
      by_cases e4 : r = b2
      · simp only [eq_true e1, eq_false n2, eq_false n3, eq_true e4, if_true, if_false]
        exact doneRecv_doneSend _ _ _ (by rw [e1]; exact hs1) (by rw [e4]; exact hr2)
      · simp only [eq_true e1, eq_false n2, eq_false n3, eq_false e4, if_true, if_false]
    · by_cases e2 : r = b1
      · have n4 : ¬ r = b2 := fun e => hbb (e2.symm.trans e)
        by_cases e3 : r = a2
        · simp only [eq_false e1, eq_true e2, eq_true e3, eq_false n4, if_true, if_false]
          exact (doneRecv_doneSend _ _ _ (by rw [e3]; exact hs2) (by rw [e2]; exact hr1)).symm
        · simp only [eq_false e1, eq_true e2, eq_false e3, eq_false n4, if_true, if_false]
      · by_cases e3 : r = a2
        · have n4 : ¬ r = b2 := fun e => hab2 (e3.symm.trans e)
          simp only [eq_false e1, eq_false e2, eq_true e3, eq_false n4, if_true, if_false]
        · by_cases e4 : r = b2
          · simp only [eq_false e1, eq_false e2, eq_false e3, eq_true e4, if_true, if_false]
          · simp only [eq_false e1, eq_false e2, eq_false e3, eq_false e4, if_true, if_false]

/-- A state from which some order of transfers lets every rank return keeps
that property after any transfer that can happen, with one transfer less to
go. -/
theorem completes_after_fire (f : State) (hf : ∀ rank, f rank = []) :
    ∀ (ms : List Msg) (s : State) (m : Msg), exec s ms = some f → enabled s m →
      ∃ ms', exec (fire s m) ms' = some f ∧ ms'.length + 1 = ms.length := by
  intro ms
  induction ms with
  | nil =>
    intro s m h hm
    rw [exec] at h
    simp only [Option.some.injEq] at h
    subst h
    have := hm.2.1
    rw [hf] at this
    exact absurd this (by simp [openSend])
  | cons m' ms ih =>
    intro s m h hm
    obtain ⟨hm', hrest⟩ := exec_cons_some h
    by_cases e : m' = m
    · subst e
      exact ⟨ms, hrest, rfl⟩
    · obtain ⟨hen, hcomm⟩ := fire_comm s m' m e hm' hm
      obtain ⟨hen', _⟩ := fire_comm s m m' (Ne.symm e) hm hm'
      obtain ⟨ms', h', hlen⟩ := ih (fire s m') m hrest hen
      refine ⟨m' :: ms', ?_, ?_⟩
      · rw [exec, if_pos hen', ← hcomm]
        exact h'
      · rw [List.length_cons, List.length_cons, hlen]

/-- Where some order of transfers lets every rank return, every run can be
continued until every rank has returned, and all complete runs have the same
number of transfers. -/
theorem runs_extend (f : State) (hf : ∀ rank, f rank = []) :
    ∀ (ms : List Msg) (s : State) (done : List Msg) (s' : State),
      exec s done = some f → exec s ms = some s' →
      ∃ ms', exec s' ms' = some f ∧ ms.length + ms'.length = done.length := by
  intro ms
  induction ms with
  | nil =>
    intro s done s' hd hs
    rw [exec] at hs
    simp only [Option.some.injEq] at hs
    subst hs
    exact ⟨done, hd, by simp⟩
  | cons m ms ih =>
    intro s done s' hd hs
    obtain ⟨hm, hrest⟩ := exec_cons_some hs
    obtain ⟨done', hd', hlen⟩ := completes_after_fire f hf done s m hd hm
    obtain ⟨ms', h1, h2⟩ := ih (fire s m) done' s' hd' hrest
    refine ⟨ms', h1, ?_⟩
    rw [List.length_cons]
    omega

/-- A state from which a run lets every rank return is not a deadlock: every
rank has returned, or a transfer can happen. -/
theorem finished_or_enabled (f : State) (hf : ∀ rank, f rank = []) (s : State)
    (ms : List Msg) (h : exec s ms = some f) :
    (∀ rank, s rank = []) ∨ ∃ m, enabled s m := by
  cases ms with
  | nil =>
    rw [exec] at h
    simp only [Option.some.injEq] at h
    subst h
    exact Or.inl hf
  | cons m _ => exact Or.inr ⟨m, (exec_cons_some h).1⟩

end Schedule

namespace Schedule

open CsMpi (forLoop forLoop_empty forLoop_succ local_rows)

/-! ## A complete run of the schedule -/

/-- `n` sends from `a` to `b` against `n` receives of `b` from `a`, with one
tag: the `n` transfers happen one after the other. -/
theorem exec_block (a b t : Nat) (hab : a ≠ b) :
    ∀ (n : Nat) (s : State) (ra rb : List Call),
      s a = List.replicate n (MPI_Send b t) ++ ra →
      s b = List.replicate n (MPI_Recv a t) ++ rb →
      exec s (List.replicate n ⟨a, b, t⟩) =
        some (fun r => if r = a then ra else if r = b then rb else s r) := by
  intro n
  induction n with
  | zero =>
    intro s ra rb ha hb
    simp only [List.replicate_zero, List.nil_append] at ha hb
    rw [List.replicate_zero, exec]
    congr 1
    funext r
    by_cases e1 : r = a
    · rw [if_pos e1, e1, ha]
    · rw [if_neg e1]
      by_cases e2 : r = b
      · rw [if_pos e2, e2, hb]
      · rw [if_neg e2]
  | succ n ih =>
    intro s ra rb ha hb
    rw [List.replicate_succ, List.cons_append] at ha hb
    have hen : enabled s ⟨a, b, t⟩ := by
      refine ⟨hab, ?_, ?_⟩
      · show openSend (s a) = some (b, t)
        rw [ha]
        rfl
      · show openRecv (s b) = some (a, t)
        rw [hb]
        rfl
    rw [List.replicate_succ, exec, if_pos hen]
    have h1 : fire s ⟨a, b, t⟩ a = List.replicate n (MPI_Send b t) ++ ra := by
      unfold fire
      dsimp only
      rw [if_pos rfl, ha]
      rfl
    have h2 : fire s ⟨a, b, t⟩ b = List.replicate n (MPI_Recv a t) ++ rb := by
      unfold fire
      dsimp only
      rw [if_neg (Ne.symm hab), if_pos rfl, hb]
      rfl
    rw [ih (fire s ⟨a, b, t⟩) ra rb h1 h2]
    congr 1
    funext r
    by_cases e1 : r = a
    · rw [if_pos e1, if_pos e1]
    · rw [if_neg e1, if_neg e1]
      by_cases e2 : r = b
      · rw [if_pos e2, if_pos e2]
      · rw [if_neg e2, if_neg e2]
        unfold fire
        dsimp only
        rw [if_neg e1, if_neg e2]

/-- The nested loops of the scatter and of the gather: rank 0 goes through the
ranks `p = 1, 2, ..` with `cnt p` calls for each, rank `p` has `cnt p`
matching calls; the blocks are run rank by rank. -/
theorem exec_blocks (cnt : Nat → Nat) (c0 c1 : Nat → Call) (msg : Nat → Msg)
    (hblock : ∀ (p n : Nat) (s : State) (r0 rp : List Call), 1 ≤ p →
      s 0 = List.replicate n (c0 p) ++ r0 → s p = List.replicate n (c1 p) ++ rp →
      exec s (List.replicate n (msg p)) =
        some (fun r => if r = 0 then r0 else if r = p then rp else s r)) :
    ∀ hi, 1 ≤ hi → ∀ rest : State,
      exec (fun r =>
          if r = 0 then
            forLoop 1 hi (fun p calls => calls ++ List.replicate (cnt p) (c0 p)) [] ++ rest 0
          else if r < hi then List.replicate (cnt r) (c1 r) ++ rest r
          else rest r)
        (forLoop 1 hi (fun p ms => ms ++ List.replicate (cnt p) (msg p)) []) = some rest := by
  intro hi hhi
  induction hi, hhi using Nat.le_induction with
  | base =>
    intro rest
    rw [forLoop_empty _ _ _ _ (le_refl _), forLoop_empty _ _ _ _ (le_refl _), exec]
    congr 1
    funext r
    by_cases e : r = 0
    · rw [if_pos e, e]
      rfl
    · rw [if_neg e, if_neg (by omega)]
  | succ n hn ih =>
    intro rest
    obtain ⟨rest', hrest'⟩ : ∃ rest' : State, rest' = fun r =>
        if r = 0 then List.replicate (cnt n) (c0 n) ++ rest 0
        else if r = n then List.replicate (cnt n) (c1 n) ++ rest n else rest r := ⟨_, rfl⟩
    have h0 : rest' 0 = List.replicate (cnt n) (c0 n) ++ rest 0 := by
      rw [hrest']
      exact if_pos rfl
    have hn' : rest' n = List.replicate (cnt n) (c1 n) ++ rest n := by
      rw [hrest']
      dsimp only
      rw [if_neg (by omega), if_pos rfl]
    have ho : ∀ r, r ≠ 0 → r ≠ n → rest' r = rest r := by
      intro r e0 e2
      rw [hrest']
      dsimp only
      rw [if_neg e0, if_neg e2]
    have hst : (fun r =>
          if r = 0 then
            (forLoop 1 n (fun p calls => calls ++ List.replicate (cnt p) (c0 p)) [] ++
              List.replicate (cnt n) (c0 n)) ++ rest 0
          else if r < n + 1 then List.replicate (cnt r) (c1 r) ++ rest r
          else rest r) =
        (fun r =>
          if r = 0 then
            forLoop 1 n (fun p calls => calls ++ List.replicate (cnt p) (c0 p)) [] ++ rest' 0
          else if r < n then List.replicate (cnt r) (c1 r) ++ rest' r
          else rest' r) := by
      funext r
      by_cases e0 : r = 0
      · rw [if_pos e0, if_pos e0, h0, List.append_assoc]
      · rw [if_neg e0, if_neg e0]
        by_cases e1 : r < n
        · rw [if_pos e1, if_pos (by omega), ho r e0 (by omega)]
        · rw [if_neg e1]
          by_cases e2 : r = n
          · subst e2
            rw [if_pos (by omega), hn']
          · rw [if_neg (by omega), ho r e0 e2]
    rw [forLoop_succ _ _ _ _ hn, forLoop_succ _ _ _ _ hn, exec_append, hst, ih rest',
      Option.some_bind, hblock n (cnt n) rest' (rest 0) (rest n) hn h0 hn']
    congr 1
    funext r
    by_cases e0 : r = 0
    · rw [if_pos e0, e0]
    · rw [if_neg e0]
      by_cases e2 : r = n
      · rw [if_pos e2, e2]
      · rw [if_neg e2, ho r e0 e2]

end Schedule

namespace Schedule

open CsMpi (forLoop forLoop_empty forLoop_succ local_rows)

/-- The two transfers between rank `p` and rank `p+1` in an iteration: rank
`p` is in its exchange with `p+1`, rank `p+1` in its exchange with `p`. -/
theorem exec_pair (s : State) (p : Nat) (rp rq : List Call)
    (hp : s p = MPI_Sendrecv (p + 1) 2 (p + 1) 1 :: rp)
    (hq : s (p + 1) = MPI_Sendrecv p 1 p 2 :: rq) :
    exec s [⟨p + 1, p, 1⟩, ⟨p, p + 1, 2⟩] =
      some (fun r => if r = p then rp else if r = p + 1 then rq else s r) := by
  have hne : p + 1 ≠ p := by omega
  have hen1 : enabled s ⟨p + 1, p, 1⟩ := by
    refine ⟨hne, ?_, ?_⟩
    · show openSend (s (p + 1)) = some (p, 1)
      rw [hq]
      rfl
    · show openRecv (s p) = some (p + 1, 1)
      rw [hp]
      rfl
  have h1p : fire s ⟨p + 1, p, 1⟩ p = ⟨some (p + 1, 2), none⟩ :: rp := by
    unfold fire
    dsimp only
    rw [if_neg (Ne.symm hne), if_pos rfl, hp]
    rfl
  have h1q : fire s ⟨p + 1, p, 1⟩ (p + 1) = ⟨none, some (p, 2)⟩ :: rq := by
    unfold fire
    dsimp only
    rw [if_pos rfl, hq]
    rfl
  have hen2 : enabled (fire s ⟨p + 1, p, 1⟩) ⟨p, p + 1, 2⟩ := by
    refine ⟨Ne.symm hne, ?_, ?_⟩
    · show openSend (fire s ⟨p + 1, p, 1⟩ p) = some (p + 1, 2)
      rw [h1p]
      rfl
    · show openRecv (fire s ⟨p + 1, p, 1⟩ (p + 1)) = some (p, 2)
      rw [h1q]
      rfl
  rw [exec, if_pos hen1, exec, if_pos hen2, exec]
  congr 1
  funext r
  by_cases e1 : r = p
  · subst e1
    rw [if_pos rfl]
    show (if r = r then doneSend (fire s ⟨r + 1, r, 1⟩ r) else _) = rp
    rw [if_pos rfl, h1p]
    rfl
  · rw [if_neg e1]
    by_cases e2 : r = p + 1
    · subst e2
      rw [if_pos rfl]
      show (if p + 1 = p then _ else if p + 1 = p + 1
        then doneRecv (fire s ⟨p + 1, p, 1⟩ (p + 1)) else _) = rq
      rw [if_neg hne, if_pos rfl, h1q]
      rfl
    · rw [if_neg e2]
      show (if r = p then _ else if r = p + 1 then _ else fire s ⟨p + 1, p, 1⟩ r) = s r
      rw [if_neg e1, if_neg e2]
      show (if r = p + 1 then _ else if r = p then _ else s r) = s r
      rw [if_neg e2, if_neg e1]

/-- The exchanges of one iteration, run from rank 0 upwards: after the pairs
below `p` the ranks below `p` are through, rank `p` is in its exchange with
`p+1`, and the ranks above have not started. -/
theorem exec_iteration_upto (size : Nat) (rest : State) :
    ∀ p, p ≤ size - 1 →
      exec (fun r => if r < size then iterCalls size r ++ rest r else rest r)
        (forLoop 0 p (fun p ms => ms ++ [⟨p + 1, p, 1⟩, ⟨p, p + 1, 2⟩]) []) =
      some (fun r =>
        if r < p then rest r
        else if r = p then
          (if p < size - 1 then [MPI_Sendrecv (p + 1) 2 (p + 1) 1] else []) ++ rest r
        else if r < size then iterCalls size r ++ rest r else rest r) := by
  intro p
  induction p with
  | zero =>
    intro _
    rw [forLoop_empty _ _ _ _ (le_refl _), exec]
    congr 1
    funext r
    have n0 : ¬ r < 0 := by omega
    by_cases e : r = 0
    · subst e
      by_cases h : 0 < size
      · simp only [eq_true h, eq_false n0, if_true, if_false]
        unfold iterCalls
        rw [if_neg (by omega)]
        rfl
      · have : size = 0 := by omega
        subst this
        rfl
    · simp only [eq_false e, eq_false n0, if_false]
  | succ p ih =>
    intro hp
    rw [forLoop_succ _ _ _ _ (Nat.zero_le _), exec_append, ih (by omega), Option.some_bind]
    rw [exec_pair _ p (rest p)
      ((if p + 1 < size - 1 then [MPI_Sendrecv (p + 1 + 1) 2 (p + 1 + 1) 1] else [])
        ++ rest (p + 1))]
    · congr 1
      funext r
      by_cases e1 : r = p
      · subst e1
        have h1 : r < r + 1 := by omega
        simp only [eq_true h1, if_true]
      · by_cases e2 : r = p + 1
        · subst e2
          have h1 : ¬ p + 1 < p + 1 := by omega
          simp only [eq_false e1, eq_false h1, if_true, if_false]
        · by_cases e3 : r < p
          · have h1 : r < p + 1 := by omega
            simp only [eq_false e1, eq_false e2, eq_true e3, eq_true h1, if_true, if_false]
          · have h1 : ¬ r < p + 1 := by omega
            simp only [eq_false e1, eq_false e2, eq_false e3, eq_false h1, if_false]
    · have h1 : ¬ p < p := by omega
      have h2 : p < size - 1 := by omega
      simp only [eq_false h1, eq_true h2, if_true, if_false]
      rfl
    · have h1 : ¬ p + 1 < p := by omega
      have h2 : ¬ p + 1 = p := by omega
      have h3 : p + 1 < size := by omega
      have h4 : p + 1 > 0 := by omega
      simp only [eq_false h1, eq_false h2, eq_true h3, if_true, if_false]
      unfold iterCalls
      simp only [eq_true h4, if_true, Nat.add_sub_cancel]
      rfl

/-- The exchanges of one iteration complete. -/
theorem exec_iteration (size : Nat) (rest : State) :
    exec (fun r => if r < size then iterCalls size r ++ rest r else rest r)
      (forLoop 0 (size - 1) (fun p ms => ms ++ [⟨p + 1, p, 1⟩, ⟨p, p + 1, 2⟩]) []) =
    some rest := by
  rw [exec_iteration_upto size rest (size - 1) (le_refl _)]
  congr 1
  funext r
  by_cases e1 : r < size - 1
  · simp only [eq_true e1, if_true]
  · by_cases e2 : r = size - 1
    · subst e2
      have h1 : ¬ size - 1 < size - 1 := by omega
      simp only [eq_false h1, if_true, if_false]
      rfl
    · have h1 : ¬ r < size := by omega
      simp only [eq_false e1, eq_false e2, eq_false h1, if_false]

/-- The exchanges of `steps` iterations complete. -/
theorem exec_iterations (size : Nat) :
    ∀ (steps : Nat) (rest : State),
      exec (fun r =>
          if r < size then
            forLoop 1 (steps + 1) (fun _ calls => calls ++ iterCalls size r) [] ++ rest r
          else rest r)
        (forLoop 1 (steps + 1) (fun _ ms => ms ++
          forLoop 0 (size - 1) (fun p ms => ms ++ [⟨p + 1, p, 1⟩, ⟨p, p + 1, 2⟩]) []) []) =
      some rest := by
  intro steps
  induction steps with
  | zero =>
    intro rest
    rw [forLoop_empty _ _ _ _ (le_refl _), exec]
    congr 1
    funext r
    rw [forLoop_empty _ _ _ _ (le_refl _)]
    by_cases e : r < size
    · rw [if_pos e]
      rfl
    · rw [if_neg e]
  | succ n ih =>
    intro rest
    obtain ⟨rest', hrest'⟩ : ∃ rest' : State, rest' = fun r =>
        if r < size then iterCalls size r ++ rest r else rest r := ⟨_, rfl⟩
    have hst : (fun r =>
          if r < size then
            forLoop 1 (n + 1 + 1) (fun _ calls => calls ++ iterCalls size r) [] ++ rest r
          else rest r) =
        (fun r =>
          if r < size then
            forLoop 1 (n + 1) (fun _ calls => calls ++ iterCalls size r) [] ++ rest' r
          else rest' r) := by
      funext r
      rw [hrest']
      dsimp only
      by_cases e : r < size
      · rw [if_pos e, if_pos e, if_pos e, forLoop_succ _ _ _ _ (by omega), List.append_assoc]
      · rw [if_neg e, if_neg e, if_neg e]
    rw [hst, forLoop_succ _ _ _ _ (by omega), exec_append, ih rest', Option.some_bind, hrest']
    exact exec_iteration size rest

end Schedule

namespace Schedule

open CsMpi (forLoop forLoop_empty forLoop_succ local_rows)

/-- The schedule is a complete run: all its transfers can happen in order,
and afterwards every rank has returned from all its calls. -/
theorem schedule_completes (rows size steps : Nat) (hs : 1 ≤ size) :
    exec (initial rows size steps) (schedule rows size steps) = some (fun _ => []) := by
  have hs0 : 0 < size := hs
  obtain ⟨rest2, hrest2⟩ : ∃ rest2 : State, rest2 = fun r =>
      if r < size then gatherCalls rows size r else [] := ⟨_, rfl⟩
  obtain ⟨rest1, hrest1⟩ : ∃ rest1 : State, rest1 = fun r =>
      if r < size then
        forLoop 1 (steps + 1) (fun _ calls => calls ++ iterCalls size r) [] ++ rest2 r
      else rest2 r := ⟨_, rfl⟩
  have h0 : initial rows size steps = fun r =>
      if r = 0 then
        forLoop 1 size
          (fun p calls => calls ++ List.replicate (local_rows rows size p) (MPI_Send p 0)) []
          ++ rest1 0
      else if r < size then List.replicate (local_rows rows size r) (MPI_Recv 0 0) ++ rest1 r
      else rest1 r := by
    funext r
    rw [hrest1, hrest2]
    unfold initial program scatterCalls
    dsimp only
    by_cases e0 : r = 0
    · subst e0
      simp only [eq_true hs0, if_true, List.append_assoc]
    · by_cases e1 : r < size
      · simp only [eq_false e0, eq_true e1, if_true, if_false, List.append_assoc]
      · simp only [eq_false e0, eq_false e1, if_false]
  have h2 : rest2 = fun r =>
      if r = 0 then
        forLoop 1 size
          (fun p calls => calls ++ List.replicate (local_rows rows size p) (MPI_Recv p 3)) []
          ++ (fun _ => []) 0
      else if r < size then
        List.replicate (local_rows rows size r) (MPI_Send 0 3) ++ (fun _ => []) r
      else (fun _ => []) r := by
    funext r
    rw [hrest2]
    unfold gatherCalls
    dsimp only
    by_cases e0 : r = 0
    · subst e0
      simp only [eq_true hs0, if_true, List.append_nil]
    · by_cases e1 : r < size
      · simp only [eq_false e0, eq_true e1, if_true, if_false, List.append_nil]
      · simp only [eq_false e0, eq_false e1, if_false]
  unfold schedule
  rw [exec_append, exec_append, h0]
  rw [exec_blocks (fun p => local_rows rows size p) (fun p => MPI_Send p 0)
    (fun _ => MPI_Recv 0 0) (fun p => ⟨0, p, 0⟩)
    (fun p n s r0 rp hp h0 hp' => exec_block 0 p 0 (by omega) n s r0 rp h0 hp') size hs rest1]
  rw [Option.some_bind, hrest1, exec_iterations size steps rest2, Option.some_bind, h2]
  refine exec_blocks (fun p => local_rows rows size p) (fun p => MPI_Recv p 3)
    (fun _ => MPI_Send 0 3) (fun p => ⟨p, 0, 3⟩) ?_ size hs (fun _ => [])
  intro p n s r0 rp hp h0 hp'
  rw [exec_block p 0 3 (by omega) n s rp r0 hp' h0]
  congr 1
  funext r
  by_cases e0 : r = 0
  · have : ¬ r = p := by omega
    simp only [eq_true e0, eq_false this, if_true, if_false]
  · simp only [eq_false e0, if_false]

/-- C6: the message schedule of `ContrastStretchMPI` never deadlocks, for
every `worker_count >= 1`, every number of rows and every `steps >= 0`, with
every send read as blocking until its receive takes the message.  There is a
run in which every send is matched by a receive of the same peer and tag and
after which every rank has returned from all its calls; every run, whatever
the order of its transfers, can be continued to that end, and has as many
transfers as the schedule when it gets there; and no state of any run is a
deadlock: either every rank has returned or a transfer can happen. -/
theorem schedule_never_deadlocks (rows size steps : Nat) (hs : 1 ≤ size) :
    exec (initial rows size steps) (schedule rows size steps) = some (fun _ => []) ∧
    (∀ (ms : List Msg) (s : State), exec (initial rows size steps) ms = some s →
      ∃ ms', exec s ms' = some (fun _ => []) ∧
        ms.length + ms'.length = (schedule rows size steps).length) ∧
    (∀ (ms : List Msg) (s : State), exec (initial rows size steps) ms = some s →
      (∀ rank, s rank = []) ∨ ∃ m, enabled s m) := by
  have hc := schedule_completes rows size steps hs
  have hext := fun ms s h =>
    runs_extend (fun _ => []) (fun _ => rfl) ms (initial rows size steps)
      (schedule rows size steps) s hc h
  refine ⟨hc, hext, ?_⟩
  intro ms s h
  obtain ⟨ms', h1, _⟩ := hext ms s h
  exact finished_or_enabled (fun _ => []) (fun _ => rfl) s ms' h1

/-- C6 at 10 rows on 4 workers, 3 steps. -/
theorem schedule_never_deadlocks_witness :
    1 ≤ 4 ∧
    (exec (initial 10 4 3) (schedule 10 4 3) = some (fun _ => []) ∧
    (∀ (ms : List Msg) (s : State), exec (initial 10 4 3) ms = some s →
      ∃ ms', exec s ms' = some (fun _ => []) ∧
        ms.length + ms'.length = (schedule 10 4 3).length) ∧
    (∀ (ms : List Msg) (s : State), exec (initial 10 4 3) ms = some s →
      (∀ rank, s rank = []) ∨ ∃ m, enabled s m)) :=
  ⟨by decide, schedule_never_deadlocks 10 4 3 (by decide)⟩

end Schedule
